import Mathlib

/-!
Verification of the hxcmp component framework's props encoding/decoding,
route-identity, registry dispatch and flash-rendering layers.

Go values are shallowly embedded: Go strings and byte slices are `List Nat`
(byte lists, each element < 256 where it matters), `int64` is `Int` with
explicit two's-complement wrapping at the wire, fallible operations return
`Option` or `Except`.

External primitives (the Go standard library's base64 codec, `crypto/hmac`,
`crypto/sha256`, `crypto/aes`+GCM, and the msgpack library) are not code of
this repository.  base64url is implemented faithfully, including Go's
non-strict handling of trailing (slack) bits.  The cryptographic hash, MAC
and AEAD are modelled symbolically: executable functions that are injective
by construction, the standard ideal-primitive idealization, documented at
each definition.
-/

set_option linter.unusedVariables false

namespace Hxcmp

/-- Go byte strings / byte slices as lists of byte values. -/
abbrev Bytes := List Nat

/-- All elements are bytes (< 256). -/
def ByteOk (bs : Bytes) : Prop := ∀ b ∈ bs, b < 256

instance : DecidablePred ByteOk := fun bs => List.decidableBAll _ bs

/-! ### Big-endian fixed-width naturals (wire integers) -/

/-- 4-byte big-endian encoding of a natural number (mod 2^32). -/
def be4 (n : Nat) : Bytes :=
  [n / 2 ^ 24 % 256, n / 2 ^ 16 % 256, n / 2 ^ 8 % 256, n % 256]

/-- 8-byte big-endian encoding of a natural number (mod 2^64). -/
def be8 (n : Nat) : Bytes :=
  [n / 2 ^ 56 % 256, n / 2 ^ 48 % 256, n / 2 ^ 40 % 256, n / 2 ^ 32 % 256,
   n / 2 ^ 24 % 256, n / 2 ^ 16 % 256, n / 2 ^ 8 % 256, n % 256]

/-- Read a 4-byte big-endian natural from the front of a byte list. -/
def rdBe4 : Bytes → Option (Nat × Bytes)
  | a :: b :: c :: d :: rest =>
      some (a * 2 ^ 24 + b * 2 ^ 16 + c * 2 ^ 8 + d, rest)
  | _ => none

/-- Read an 8-byte big-endian natural from the front of a byte list. -/
def rdBe8 : Bytes → Option (Nat × Bytes)
  | a :: b :: c :: d :: e :: f :: g :: h :: rest =>
      some (a * 2 ^ 56 + b * 2 ^ 48 + c * 2 ^ 40 + d * 2 ^ 32 +
            e * 2 ^ 24 + f * 2 ^ 16 + g * 2 ^ 8 + h, rest)
  | _ => none

theorem rdBe4_be4 (n : Nat) (h : n < 2 ^ 32) (rest : Bytes) :
    rdBe4 (be4 n ++ rest) = some (n, rest) := by
  simp only [be4, rdBe4, List.cons_append, List.nil_append]
  congr 1
  congr 1
  omega

theorem rdBe8_be8 (n : Nat) (h : n < 2 ^ 64) (rest : Bytes) :
    rdBe8 (be8 n ++ rest) = some (n, rest) := by
  simp only [be8, rdBe8, List.cons_append, List.nil_append]
  congr 1
  congr 1
  omega

theorem be4_length (n : Nat) : (be4 n).length = 4 := rfl

theorem be4_byteOk (n : Nat) : ByteOk (be4 n) := by
  intro b hb
  simp only [be4, List.mem_cons, List.not_mem_nil, or_false] at hb
  rcases hb with h | h | h | h <;> omega

theorem be8_byteOk (n : Nat) : ByteOk (be8 n) := by
  intro b hb
  simp only [be8, List.mem_cons, List.not_mem_nil, or_false] at hb
  rcases hb with h | h | h | h | h | h | h | h <;> omega

/-! ### Length-prefixed byte strings -/

/-- A byte string prefixed with its 4-byte big-endian length. -/
def lp (bs : Bytes) : Bytes := be4 bs.length ++ bs

/-- Read a length-prefixed byte string from the front of a byte list. -/
def rdLp (bs : Bytes) : Option (Bytes × Bytes) :=
  match rdBe4 bs with
  | none => none
  | some (n, rest) =>
      if n ≤ rest.length then some (rest.take n, rest.drop n) else none

theorem rdLp_lp (bs : Bytes) (h : bs.length < 2 ^ 32) (rest : Bytes) :
    rdLp (lp bs ++ rest) = some (bs, rest) := by
  simp only [lp, List.append_assoc, rdLp, rdBe4_be4 _ h]
  rw [if_pos (by simp)]
  simp

/-- Two length-prefixed strings followed by arbitrary suffixes agree only if
the strings and suffixes agree: the length prefix makes `lp` prefix-determined. -/
theorem lp_append_inj {a b : Bytes} {r₁ r₂ : Bytes}
    (ha : a.length < 2 ^ 32) (hb : b.length < 2 ^ 32)
    (h : lp a ++ r₁ = lp b ++ r₂) : a = b ∧ r₁ = r₂ := by
  have h1 : rdLp (lp a ++ r₁) = some (a, r₁) := rdLp_lp a ha r₁
  have h2 : rdLp (lp b ++ r₂) = some (b, r₂) := rdLp_lp b hb r₂
  rw [h, h2] at h1
  simpa using h1.symm

theorem lp_length (bs : Bytes) : (lp bs).length = 4 + bs.length := by
  simp only [lp, be4, List.length_append, List.length_cons, List.length_nil]

theorem lp_byteOk {bs : Bytes} (h : ByteOk bs) : ByteOk (lp bs) := by
  intro b hb
  rcases List.mem_append.1 hb with h' | h'
  · exact be4_byteOk _ _ h'
  · exact h _ h'

/-! ### base64url, unpadded (Go `encoding/base64` RawURLEncoding)

The Go standard library's raw URL-safe base64: alphabet `A-Za-z0-9-_`,
no padding.  Go's default (non-`Strict`) decoder ignores the unused
trailing bits of a final partial quantum; this model reproduces that
behaviour exactly, because it is observable through `Encoder.Decode`. -/

/-- The base64url alphabet: sextet value to ASCII code. -/
def b64char (n : Nat) : Nat :=
  if n < 26 then 65 + n
  else if n < 52 then 97 + (n - 26)
  else if n < 62 then 48 + (n - 52)
  else if n = 62 then 45
  else 95

/-- ASCII code back to sextet value; `none` for characters outside the
base64url alphabet. -/
def b64inv (c : Nat) : Option Nat :=
  if 65 ≤ c ∧ c ≤ 90 then some (c - 65)
  else if 97 ≤ c ∧ c ≤ 122 then some (26 + (c - 97))
  else if 48 ≤ c ∧ c ≤ 57 then some (52 + (c - 48))
  else if c = 45 then some 62
  else if c = 95 then some 63
  else none

theorem b64inv_b64char {n : Nat} (h : n < 64) : b64inv (b64char n) = some n := by
  revert h
  revert n
  decide

theorem b64char_ne_dot (n : Nat) : b64char n ≠ 46 := by
  unfold b64char
  split <;> try split <;> try split <;> try split
  all_goals omega

theorem b64inv_dot : b64inv 46 = none := by decide

/-- Encode bytes as unpadded base64url characters, three bytes to four
characters, with two- and three-character final quanta. -/
def b64encode : Bytes → Bytes
  | [] => []
  | [a] => [b64char (a / 4), b64char (a % 4 * 16)]
  | [a, b] => [b64char (a / 4), b64char (a % 4 * 16 + b / 16), b64char (b % 16 * 4)]
  | a :: b :: c :: rest =>
      b64char (a / 4) :: b64char (a % 4 * 16 + b / 16) ::
      b64char (b % 16 * 4 + c / 64) :: b64char (c % 64) :: b64encode rest

/-- Decode unpadded base64url.  A length of 1 mod 4 is malformed.  The
unused low bits of the final character of a partial quantum are ignored,
as in Go's non-strict decoder. -/
def b64decode : Bytes → Option Bytes
  | [] => some []
  | [_] => none
  | [c₁, c₂] =>
      match b64inv c₁, b64inv c₂ with
      | some a, some b => some [a * 4 + b / 16]
      | _, _ => none
  | [c₁, c₂, c₃] =>
      match b64inv c₁, b64inv c₂, b64inv c₃ with
      | some a, some b, some c => some [a * 4 + b / 16, b % 16 * 16 + c / 4]
      | _, _, _ => none
  | c₁ :: c₂ :: c₃ :: c₄ :: rest =>
      match b64inv c₁, b64inv c₂, b64inv c₃, b64inv c₄, b64decode rest with
      | some a, some b, some c, some d, some bs =>
          some ((a * 4 + b / 16) :: (b % 16 * 16 + c / 4) :: (c % 4 * 64 + d) :: bs)
      | _, _, _, _, _ => none

theorem b64decode_b64encode (bs : Bytes) (h : ByteOk bs) :
    b64decode (b64encode bs) = some bs := by
  induction bs using b64encode.induct with
  | case1 => rfl
  | case2 a =>
      have ha : a < 256 := h a (by simp)
      have e1 : a / 4 * 4 + a % 4 * 16 / 16 = a := by omega
      simp only [b64encode, b64decode,
        b64inv_b64char (show a / 4 < 64 by omega),
        b64inv_b64char (show a % 4 * 16 < 64 by omega), e1]
  | case3 a b =>
      have ha : a < 256 := h a (by simp)
      have hb : b < 256 := h b (by simp)
      have e1 : a / 4 * 4 + (a % 4 * 16 + b / 16) / 16 = a := by omega
      have e2 : (a % 4 * 16 + b / 16) % 16 * 16 + b % 16 * 4 / 4 = b := by omega
      simp only [b64encode, b64decode,
        b64inv_b64char (show a / 4 < 64 by omega),
        b64inv_b64char (show a % 4 * 16 + b / 16 < 64 by omega),
        b64inv_b64char (show b % 16 * 4 < 64 by omega), e1, e2]
  | case4 a b c rest ih =>
      have ha : a < 256 := h a (by simp)
      have hb : b < 256 := h b (by simp)
      have hc : c < 256 := h c (by simp)
      have hrest : ByteOk rest := fun x hx => h x (by simp [hx])
      have e1 : a / 4 * 4 + (a % 4 * 16 + b / 16) / 16 = a := by omega
      have e2 : (a % 4 * 16 + b / 16) % 16 * 16 + (b % 16 * 4 + c / 64) / 4 = b := by
        omega
      have e3 : (b % 16 * 4 + c / 64) % 4 * 64 + c % 64 = c := by omega
      simp only [b64encode, b64decode,
        b64inv_b64char (show a / 4 < 64 by omega),
        b64inv_b64char (show a % 4 * 16 + b / 16 < 64 by omega),
        b64inv_b64char (show b % 16 * 4 + c / 64 < 64 by omega),
        b64inv_b64char (show c % 64 < 64 by omega),
        ih hrest, e1, e2, e3]

theorem dot_not_mem_b64encode (bs : Bytes) : 46 ∉ b64encode bs := by
  induction bs using b64encode.induct with
  | case1 => simp [b64encode]
  | case2 a =>
      simp only [b64encode, List.mem_cons, List.not_mem_nil, or_false]
      rintro (h | h) <;> exact b64char_ne_dot _ h.symm
  | case3 a b =>
      simp only [b64encode, List.mem_cons, List.not_mem_nil, or_false]
      rintro (h | h | h) <;> exact b64char_ne_dot _ h.symm
  | case4 a b c rest ih =>
      simp only [b64encode, List.mem_cons]
      rintro (h | h | h | h | h)
      · exact b64char_ne_dot _ h.symm
      · exact b64char_ne_dot _ h.symm
      · exact b64char_ne_dot _ h.symm
      · exact b64char_ne_dot _ h.symm
      · exact ih h

theorem b64inv_isSome_b64char {n : Nat} (h : n < 64) :
    (b64inv (b64char n)).isSome := by
  rw [b64inv_b64char h]
  rfl

theorem b64encode_valid (bs : Bytes) (h : ByteOk bs) :
    ∀ c ∈ b64encode bs, (b64inv c).isSome := by
  induction bs using b64encode.induct with
  | case1 => simp [b64encode]
  | case2 a =>
      have ha : a < 256 := h a (by simp)
      simp only [b64encode, List.mem_cons, List.not_mem_nil, or_false]
      rintro c (rfl | rfl)
      · exact b64inv_isSome_b64char (by omega)
      · exact b64inv_isSome_b64char (by omega)
  | case3 a b =>
      have ha : a < 256 := h a (by simp)
      have hb : b < 256 := h b (by simp)
      simp only [b64encode, List.mem_cons, List.not_mem_nil, or_false]
      rintro c (rfl | rfl | rfl)
      · exact b64inv_isSome_b64char (by omega)
      · exact b64inv_isSome_b64char (by omega)
      · exact b64inv_isSome_b64char (by omega)
  | case4 a b c rest ih =>
      have ha : a < 256 := h a (by simp)
      have hb : b < 256 := h b (by simp)
      have hc : c < 256 := h c (by simp)
      have hrest : ByteOk rest := fun x hx => h x (by simp [hx])
      simp only [b64encode, List.mem_cons]
      rintro x (rfl | rfl | rfl | rfl | hx)
      · exact b64inv_isSome_b64char (by omega)
      · exact b64inv_isSome_b64char (by omega)
      · exact b64inv_isSome_b64char (by omega)
      · exact b64inv_isSome_b64char (by omega)
      · exact ih hrest x hx

/-- Number of base64url characters produced for `n` input bytes. -/
def b64elen (n : Nat) : Nat := (4 * n + 2) / 3

/-- Number of bytes produced by decoding `n` base64url characters
(`n % 4 = 1` never decodes). -/
def b64dlen (n : Nat) : Nat := 3 * n / 4

theorem b64encode_length (bs : Bytes) :
    (b64encode bs).length = b64elen bs.length := by
  induction bs using b64encode.induct with
  | case1 => rfl
  | case2 a => simp [b64encode, b64elen]
  | case3 a b => simp [b64encode, b64elen]
  | case4 a b c rest ih =>
      simp only [b64encode, List.length_cons, ih, b64elen]
      omega

theorem b64elen_mod_four (n : Nat) : b64elen n % 4 ≠ 1 := by
  unfold b64elen
  omega

theorem b64dlen_b64elen (n : Nat) : b64dlen (b64elen n) = n := by
  unfold b64elen b64dlen
  omega

theorem b64dlen_lt {j m : Nat} (hj : j < b64elen m) (h4 : j % 4 ≠ 1) :
    b64dlen j < m := by
  unfold b64elen at hj
  unfold b64dlen
  omega

/-- Induction on a list by chunks of four, matching the quantum structure
of base64 decoding. -/
theorem quadInduction (motive : Bytes → Prop) (h0 : motive [])
    (h1 : ∀ a, motive [a]) (h2 : ∀ a b, motive [a, b])
    (h3 : ∀ a b c, motive [a, b, c])
    (h4 : ∀ a b c d rest, motive rest → motive (a :: b :: c :: d :: rest)) :
    ∀ l, motive l
  | [] => h0
  | [a] => h1 a
  | [a, b] => h2 a b
  | [a, b, c] => h3 a b c
  | a :: b :: c :: d :: rest =>
      h4 a b c d rest (quadInduction motive h0 h1 h2 h3 h4 rest)

theorem b64decode_of_valid (l : Bytes) :
    (∀ c ∈ l, (b64inv c).isSome) → l.length % 4 ≠ 1 →
    ∃ bs, b64decode l = some bs ∧ bs.length = b64dlen l.length := by
  induction l using quadInduction with
  | h0 =>
      intro _ _
      exact ⟨[], rfl, rfl⟩
  | h1 a =>
      intro _ hl
      simp at hl
  | h2 a b =>
      intro hv _
      obtain ⟨a', ha⟩ := Option.isSome_iff_exists.1 (hv a (by simp))
      obtain ⟨b', hb⟩ := Option.isSome_iff_exists.1 (hv b (by simp))
      exact ⟨[a' * 4 + b' / 16], by simp [b64decode, ha, hb], by simp [b64dlen]⟩
  | h3 a b c =>
      intro hv _
      obtain ⟨a', ha⟩ := Option.isSome_iff_exists.1 (hv a (by simp))
      obtain ⟨b', hb⟩ := Option.isSome_iff_exists.1 (hv b (by simp))
      obtain ⟨c', hc⟩ := Option.isSome_iff_exists.1 (hv c (by simp))
      exact ⟨[a' * 4 + b' / 16, b' % 16 * 16 + c' / 4],
        by simp [b64decode, ha, hb, hc], by simp [b64dlen]⟩
  | h4 a b c d rest ih =>
      intro hv hl
      obtain ⟨a', ha⟩ := Option.isSome_iff_exists.1 (hv a (by simp))
      obtain ⟨b', hb⟩ := Option.isSome_iff_exists.1 (hv b (by simp))
      obtain ⟨c', hc⟩ := Option.isSome_iff_exists.1 (hv c (by simp))
      obtain ⟨d', hd⟩ := Option.isSome_iff_exists.1 (hv d (by simp))
      have hvrest : ∀ x ∈ rest, (b64inv x).isSome := fun x hx => hv x (by simp [hx])
      have hlrest : rest.length % 4 ≠ 1 := by
        simp only [List.length_cons] at hl
        omega
      obtain ⟨bs, hbs, hlen⟩ := ih hvrest hlrest
      refine ⟨(a' * 4 + b' / 16) :: (b' % 16 * 16 + c' / 4) :: (c' % 4 * 64 + d') :: bs,
        ?_, ?_⟩
      · simp [b64decode, ha, hb, hc, hd, hbs]
      · simp only [List.length_cons, hlen, b64dlen]
        omega

theorem b64decode_some_valid (l : Bytes) (bs : Bytes) :
    b64decode l = some bs →
    (∀ c ∈ l, (b64inv c).isSome) ∧ bs.length = b64dlen l.length := by
  induction l using quadInduction generalizing bs with
  | h0 =>
      intro h
      simp only [b64decode, Option.some.injEq] at h
      subst h
      simp [b64dlen]
  | h1 a =>
      intro h
      simp [b64decode] at h
  | h2 a b =>
      intro h
      simp only [b64decode] at h
      rcases ha : b64inv a with _ | a' <;> rw [ha] at h
      · simp at h
      rcases hb : b64inv b with _ | b' <;> rw [hb] at h
      · simp at h
      refine ⟨?_, ?_⟩
      · intro x hx
        simp only [List.mem_cons, List.not_mem_nil, or_false] at hx
        rcases hx with rfl | rfl
        · simp [ha]
        · simp [hb]
      · have hbs : bs = [a' * 4 + b' / 16] := by simpa using h.symm
        subst hbs
        simp [b64dlen]
  | h3 a b c =>
      intro h
      simp only [b64decode] at h
      rcases ha : b64inv a with _ | a' <;> rw [ha] at h
      · simp at h
      rcases hb : b64inv b with _ | b' <;> rw [hb] at h
      · simp at h
      rcases hc : b64inv c with _ | c' <;> rw [hc] at h
      · simp at h
      refine ⟨?_, ?_⟩
      · intro x hx
        simp only [List.mem_cons, List.not_mem_nil, or_false] at hx
        rcases hx with rfl | rfl | rfl
        · simp [ha]
        · simp [hb]
        · simp [hc]
      · have hbs : bs = [a' * 4 + b' / 16, b' % 16 * 16 + c' / 4] := by simpa using h.symm
        subst hbs
        simp [b64dlen]
  | h4 a b c d rest ih =>
      intro h
      simp only [b64decode] at h
      rcases ha : b64inv a with _ | a' <;> rw [ha] at h
      · simp at h
      rcases hb : b64inv b with _ | b' <;> rw [hb] at h
      · simp at h
      rcases hc : b64inv c with _ | c' <;> rw [hc] at h
      · simp at h
      rcases hd : b64inv d with _ | d' <;> rw [hd] at h
      · simp at h
      rcases hrest : b64decode rest with _ | bs' <;> rw [hrest] at h
      · simp at h
      obtain ⟨ihv, ihl⟩ := ih bs' hrest
      refine ⟨?_, ?_⟩
      · intro x hx
        simp only [List.mem_cons] at hx
        rcases hx with rfl | rfl | rfl | rfl | hx
        · simp [ha]
        · simp [hb]
        · simp [hc]
        · simp [hd]
        · exact ihv x hx
      · have hbs : bs =
            (a' * 4 + b' / 16) :: (b' % 16 * 16 + c' / 4) :: (c' % 4 * 64 + d') :: bs' := by
          simpa using h.symm
        subst hbs
        simp only [List.length_cons, ihl, b64dlen]
        omega

/-- Decoding a character-prefix of an encoded string: a prefix of length
1 mod 4 is malformed; any other prefix decodes to the corresponding byte
prefix of the original input (Go's non-strict decoder). -/
theorem b64decode_take (bs : Bytes) (h : ByteOk bs) (j : Nat) :
    (j % 4 = 1 → j ≤ (b64encode bs).length →
      b64decode ((b64encode bs).take j) = none) ∧
    (j % 4 ≠ 1 →
      b64decode ((b64encode bs).take j) = some (bs.take (b64dlen j))) := by
  induction bs using b64encode.induct generalizing j with
  | case1 =>
      constructor
      · intro h1 hle
        simp only [b64encode, List.length_nil] at hle
        omega
      · intro _
        simp [b64encode, b64decode]
  | case2 a =>
      have ha : a < 256 := h a (by simp)
      rcases j with _ | _ | j
      · exact ⟨by omega, by intro _; simp [b64encode, b64decode, b64dlen]⟩
      · refine ⟨fun _ _ => ?_, by omega⟩
        simp [b64encode, b64decode]
      · constructor
        · intro h1 hle
          simp only [b64encode, List.length_cons, List.length_nil] at hle
          omega
        · intro h4
          have htake : (b64encode [a]).take (j + 2) = b64encode [a] :=
            List.take_of_length_le (by simp [b64encode])
          rw [htake, b64decode_b64encode [a] h]
          have : 1 ≤ b64dlen (j + 2) := by
            unfold b64dlen
            omega
          congr 1
          rw [List.take_of_length_le (by simpa using this)]
  | case3 a b =>
      have ha : a < 256 := h a (by simp)
      have hb : b < 256 := h b (by simp)
      rcases j with _ | _ | _ | j
      · exact ⟨by omega, by intro _; simp [b64encode, b64decode, b64dlen]⟩
      · refine ⟨fun _ _ => ?_, by omega⟩
        simp [b64encode, b64decode]
      · refine ⟨by omega, fun _ => ?_⟩
        have e1 : a / 4 * 4 + (a % 4 * 16 + b / 16) / 16 = a := by omega
        simp only [b64encode, List.take_succ_cons, List.take_zero, b64decode,
          b64inv_b64char (show a / 4 < 64 by omega),
          b64inv_b64char (show a % 4 * 16 + b / 16 < 64 by omega), e1]
        rfl
      · constructor
        · intro h1 hle
          simp only [b64encode, List.length_cons, List.length_nil] at hle
          omega
        · intro h4
          have htake : (b64encode [a, b]).take (j + 3) = b64encode [a, b] :=
            List.take_of_length_le (by simp [b64encode])
          rw [htake, b64decode_b64encode [a, b] h]
          have : 2 ≤ b64dlen (j + 3) := by
            unfold b64dlen
            omega
          congr 1
          rw [List.take_of_length_le (by simpa using this)]
  | case4 a b c rest ih =>
      have ha : a < 256 := h a (by simp)
      have hb : b < 256 := h b (by simp)
      have hc : c < 256 := h c (by simp)
      have hrest : ByteOk rest := fun x hx => h x (by simp [hx])
      rcases j with _ | _ | _ | _ | j
      · exact ⟨by omega, by intro _; simp [b64encode, b64decode, b64dlen]⟩
      · refine ⟨fun _ _ => ?_, by omega⟩
        simp [b64encode, b64decode]
      · refine ⟨by omega, fun _ => ?_⟩
        have e1 : a / 4 * 4 + (a % 4 * 16 + b / 16) / 16 = a := by omega
        simp only [b64encode, List.take_succ_cons, List.take_zero, b64decode,
          b64inv_b64char (show a / 4 < 64 by omega),
          b64inv_b64char (show a % 4 * 16 + b / 16 < 64 by omega), e1]
        rfl
      · refine ⟨by omega, fun _ => ?_⟩
        have e1 : a / 4 * 4 + (a % 4 * 16 + b / 16) / 16 = a := by omega
        have e2 : (a % 4 * 16 + b / 16) % 16 * 16 + (b % 16 * 4 + c / 64) / 4 = b := by
          omega
        simp only [b64encode, List.take_succ_cons, List.take_zero, b64decode,
          b64inv_b64char (show a / 4 < 64 by omega),
          b64inv_b64char (show a % 4 * 16 + b / 16 < 64 by omega),
          b64inv_b64char (show b % 16 * 4 + c / 64 < 64 by omega), e1, e2]
        rfl
      · have hstep : (b64encode (a :: b :: c :: rest)).take (j + 4) =
            b64char (a / 4) :: b64char (a % 4 * 16 + b / 16) ::
            b64char (b % 16 * 4 + c / 64) :: b64char (c % 64) ::
            (b64encode rest).take j := by
          simp [b64encode, List.take_succ_cons]
        constructor
        · intro h1 hle
          have hj1 : j % 4 = 1 := by omega
          have hjle : j ≤ (b64encode rest).length := by
            simp only [b64encode, List.length_cons] at hle
            omega
          rw [hstep]
          simp only [b64decode,
            b64inv_b64char (show a / 4 < 64 by omega),
            b64inv_b64char (show a % 4 * 16 + b / 16 < 64 by omega),
            b64inv_b64char (show b % 16 * 4 + c / 64 < 64 by omega),
            b64inv_b64char (show c % 64 < 64 by omega),
            (ih hrest j).1 hj1 hjle]
        · intro h4
          have hj4 : j % 4 ≠ 1 := by omega
          have e1 : a / 4 * 4 + (a % 4 * 16 + b / 16) / 16 = a := by omega
          have e2 : (a % 4 * 16 + b / 16) % 16 * 16 + (b % 16 * 4 + c / 64) / 4 = b := by
            omega
          have e3 : (b % 16 * 4 + c / 64) % 4 * 64 + c % 64 = c := by omega
          have edlen : b64dlen (j + 4) = b64dlen j + 3 := by
            unfold b64dlen
            omega
          rw [hstep]
          simp only [b64decode,
            b64inv_b64char (show a / 4 < 64 by omega),
            b64inv_b64char (show a % 4 * 16 + b / 16 < 64 by omega),
            b64inv_b64char (show b % 16 * 4 + c / 64 < 64 by omega),
            b64inv_b64char (show c % 64 < 64 by omega),
            (ih hrest j).2 hj4, e1, e2, e3, edlen]
          simp [List.take_succ_cons, Nat.add_comm 3 (b64dlen j)]

/-! ### Binary map payload (model of the external msgpack library)

`Encoder.Encode` marshals a `map[string]any` with msgpack
(`github.com/vmihailenco/msgpack/v5`, an external dependency).  Per the
spec the contract is a compact binary map of `{stringKey: value}` pairs,
stable under round-trip for the scalar types used by generated code
(int64, string, bool).  Modelled here with msgpack's wide forms: map32
(tag 0xdf=223), str32 (0xdb=219), int64 (0xd3=211), bool
(0xc2=194/0xc3=195), with 4-byte big-endian lengths.  Go maps iterate in
unspecified order; the model fixes the generated `HXEncode` insertion
order, which only strengthens determinism and does not affect the
round-trip or tamper claims. -/

/-- A msgpack value of one of the scalar types used by generated props. -/
inductive MVal where
  | mInt (n : Int)
  | mStr (s : Bytes)
  | mBool (b : Bool)
deriving DecidableEq

/-- A `map[string]any` as an association list in insertion order. -/
abbrev MapData := List (Bytes × MVal)

/-- Marshal one value. int64 is written as two's complement mod 2^64. -/
def encVal : MVal → Bytes
  | .mInt n => 211 :: be8 (n % (2 ^ 64 : Int)).toNat
  | .mStr s => 219 :: lp s
  | .mBool b => [if b then 195 else 194]

/-- Marshal one key/value entry (key as str32, then the value). -/
def encEntry (kv : Bytes × MVal) : Bytes := 219 :: lp kv.1 ++ encVal kv.2

/-- Marshal the entry list. -/
def encEntries : MapData → Bytes
  | [] => []
  | kv :: rest => encEntry kv ++ encEntries rest

/-- Marshal a whole map (map32 header with entry count). -/
def msgpackMarshal (m : MapData) : Bytes := 223 :: (be4 m.length ++ encEntries m)

/-- Interpret a 64-bit wire word as a signed int64 (two's complement). -/
def int64OfWire (v : Nat) : Int := if v < 2 ^ 63 then (v : Int) else (v : Int) - 2 ^ 64

/-- Read one str32 string. -/
def rdStr : Bytes → Option (Bytes × Bytes)
  | 219 :: rest => rdLp rest
  | _ => none

/-- Read one value. -/
def rdVal : Bytes → Option (MVal × Bytes)
  | 211 :: rest =>
      match rdBe8 rest with
      | some (v, rest') => some (.mInt (int64OfWire v), rest')
      | none => none
  | 219 :: rest => (rdLp rest).map (fun p => (.mStr p.1, p.2))
  | 194 :: rest => some (.mBool false, rest)
  | 195 :: rest => some (.mBool true, rest)
  | _ => none

/-- Read `n` key/value entries. -/
def rdEntries : Nat → Bytes → Option (MapData × Bytes)
  | 0, bs => some ([], bs)
  | n + 1, bs =>
      match rdStr bs with
      | none => none
      | some (k, bs₁) =>
          match rdVal bs₁ with
          | none => none
          | some (v, bs₂) =>
              match rdEntries n bs₂ with
              | none => none
              | some (kvs, bs₃) => some ((k, v) :: kvs, bs₃)

/-- Unmarshal a map payload.  As with the Go library's decoder, exactly one
top-level value is read; trailing bytes are not an error. -/
def msgpackUnmarshal (bs : Bytes) : Option MapData :=
  match bs with
  | 223 :: rest =>
      match rdBe4 rest with
      | some (n, rest') => (rdEntries n rest').map (fun p => p.1)
      | none => none
  | _ => none

/-- Well-formedness of a value for the Go types it models. -/
def MValOk : MVal → Prop
  | .mInt n => -(2 ^ 63) ≤ n ∧ n < 2 ^ 63
  | .mStr s => ByteOk s ∧ s.length < 2 ^ 32
  | .mBool _ => True

/-- Well-formedness of a marshalled map. -/
def MapOk (m : MapData) : Prop :=
  m.length < 2 ^ 32 ∧
  ∀ kv ∈ m, (ByteOk kv.1 ∧ kv.1.length < 2 ^ 32) ∧ MValOk kv.2

theorem rdVal_encVal (v : MVal) (hv : MValOk v) (rest : Bytes) :
    rdVal (encVal v ++ rest) = some (v, rest) := by
  rcases v with n | s | b
  · obtain ⟨h1, h2⟩ := hv
    have hlt : (n % (2 ^ 64 : Int)).toNat < 2 ^ 64 := by omega
    have hout : int64OfWire (n % (2 ^ 64 : Int)).toNat = n := by
      unfold int64OfWire
      rcases le_or_lt 0 n with hpos | hneg
      · have hm : n % (2 ^ 64 : Int) = n := by omega
        rw [hm, if_pos (by omega)]
        omega
      · have hm : n % (2 ^ 64 : Int) = n + 2 ^ 64 := by omega
        rw [hm, if_neg (by omega)]
        omega
    show rdVal (211 :: (be8 _ ++ rest)) = _
    simp only [rdVal, rdBe8_be8 _ hlt, hout]
  · obtain ⟨h1, h2⟩ := hv
    show rdVal (219 :: (lp s ++ rest)) = _
    simp only [rdVal, rdLp_lp s h2]
    rfl
  · rcases b with _ | _ <;> rfl

theorem rdStr_key (k : Bytes) (hk : k.length < 2 ^ 32) (rest : Bytes) :
    rdStr (219 :: lp k ++ rest) = some (k, rest) := by
  show rdStr (219 :: (lp k ++ rest)) = _
  simp only [rdStr, rdLp_lp k hk]

theorem rdEntries_encEntries (m : MapData) (hm : MapOk m) (rest : Bytes) :
    rdEntries m.length (encEntries m ++ rest) = some (m, rest) := by
  induction m with
  | nil => rfl
  | cons kv tail ih =>
      obtain ⟨hcount, hkv⟩ := hm
      obtain ⟨⟨hkb, hkl⟩, hvo⟩ := hkv kv (by simp)
      have htail : MapOk tail := by
        refine ⟨by simp only [List.length_cons] at hcount; omega, ?_⟩
        intro x hx
        exact hkv x (by simp [hx])
      show rdEntries (tail.length + 1) (encEntry kv ++ encEntries tail ++ rest) = _
      rw [rdEntries]
      have hassoc : encEntry kv ++ encEntries tail ++ rest =
          219 :: lp kv.1 ++ (encVal kv.2 ++ (encEntries tail ++ rest)) := by
        simp [encEntry, List.append_assoc]
      rw [hassoc, rdStr_key kv.1 hkl]
      simp only [rdVal_encVal kv.2 hvo, ih htail]

theorem msgpackUnmarshal_msgpackMarshal (m : MapData) (hm : MapOk m) :
    msgpackUnmarshal (msgpackMarshal m) = some m := by
  have hrd : rdEntries m.length (encEntries m) = some (m, []) := by
    have h := rdEntries_encEntries m hm []
    simpa using h
  show msgpackUnmarshal (223 :: (be4 m.length ++ encEntries m)) = _
  simp only [msgpackUnmarshal, rdBe4_be4 m.length hm.1, hrd]
  rfl

theorem encVal_byteOk (v : MVal) (hv : MValOk v) : ByteOk (encVal v) := by
  rcases v with n | s | b
  · intro x hx
    rcases List.mem_cons.1 hx with rfl | hx'
    · omega
    · exact be8_byteOk _ x hx'
  · intro x hx
    rcases List.mem_cons.1 hx with rfl | hx'
    · omega
    · exact lp_byteOk hv.1 x hx'
  · intro x hx
    rcases b with _ | _ <;> simp [encVal] at hx <;> omega

theorem encEntries_byteOk (m : MapData) (hm : MapOk m) : ByteOk (encEntries m) := by
  induction m with
  | nil => intro x hx; simp [encEntries] at hx
  | cons kv tail ih =>
      obtain ⟨hcount, hkv⟩ := hm
      obtain ⟨⟨hkb, hkl⟩, hvo⟩ := hkv kv (by simp)
      have htail : MapOk tail := by
        refine ⟨by simp only [List.length_cons] at hcount; omega, ?_⟩
        intro x hx
        exact hkv x (by simp [hx])
      intro x hx
      rcases List.mem_append.1 hx with hx' | hx'
      · have hx3 : x = 219 ∨ x ∈ lp kv.1 ∨ x ∈ encVal kv.2 := by
          simpa [encEntry, List.append_assoc] using hx'
        rcases hx3 with rfl | h3 | h3
        · omega
        · exact lp_byteOk hkb x h3
        · exact encVal_byteOk kv.2 hvo x h3
      · exact ih htail x hx'

theorem msgpackMarshal_byteOk (m : MapData) (hm : MapOk m) :
    ByteOk (msgpackMarshal m) := by
  intro x hx
  rcases List.mem_cons.1 hx with rfl | hx'
  · omega
  · rcases List.mem_append.1 hx' with h3 | h3
    · exact be4_byteOk _ x h3
    · exact encEntries_byteOk m hm x h3

/-! ### Symbolic cryptographic primitives

`crypto/sha256`, `crypto/hmac` and `crypto/aes`+`cipher.NewGCM` are
external primitives whose contracts (collision resistance, unforgeability,
AEAD authenticity) are cryptographic, not functional.  They are modelled
symbolically in the standard ideal-primitive style: executable functions
that are injective by construction on the domains the code uses, so the
ideal guarantees the code relies on hold absolutely in the model. -/

/-- Modelled: SHA-256 (`crypto/sha256`, external) as an ideal one-way
compression to a 32-byte digest.  Realized executably by a length byte
followed by the input padded to 31 bytes, which is injective on the
under-32-byte secrets `NewEncoder` ever hashes, mirroring ideal
collision-freedom. -/
def sha256sym (s : Bytes) : Bytes :=
  (s.length % 256) :: (s ++ List.replicate 31 0).take 31

theorem sha256sym_length (s : Bytes) : (sha256sym s).length = 32 := by
  simp [sha256sym]

theorem sha256sym_byteOk {s : Bytes} (h : ByteOk s) : ByteOk (sha256sym s) := by
  intro b hb
  rcases List.mem_cons.1 hb with rfl | hb'
  · exact Nat.mod_lt _ (by norm_num)
  · rcases List.mem_append.1 (List.mem_of_mem_take hb') with h3 | h3
    · exact h b h3
    · simp_all

theorem sha256sym_inj {a b : Bytes} (ha : a.length < 32) (hb : b.length < 32)
    (h : sha256sym a = sha256sym b) : a = b := by
  simp only [sha256sym, List.cons.injEq] at h
  obtain ⟨hlen, htail⟩ := h
  have hlen' : a.length = b.length := by omega
  have ha' : a = ((a ++ List.replicate 31 0).take 31).take a.length := by
    rw [List.take_take, min_eq_left (by omega), List.take_append_of_le_length (by omega),
      List.take_length]
  have hb' : b = ((b ++ List.replicate 31 0).take 31).take b.length := by
    rw [List.take_take, min_eq_left (by omega), List.take_append_of_le_length (by omega),
      List.take_length]
  rw [ha', hb', htail, hlen']

/-- Modelled: HMAC-SHA256 (`crypto/hmac`, external) as an ideal
unforgeable MAC: a symbolic tag determined injectively by key and
message.  The source truncates the 32-byte MAC to 16 bytes
(`mac.Sum(nil)[:16]`); the symbolic tag is kept whole, since truncation
is exactly the cryptographic detail the ideal model elides. -/
def hmacSym (key data : Bytes) : Bytes := lp key ++ data

theorem hmacSym_inj {k₁ k₂ d₁ d₂ : Bytes}
    (h₁ : k₁.length < 2 ^ 32) (h₂ : k₂.length < 2 ^ 32)
    (h : hmacSym k₁ d₁ = hmacSym k₂ d₂) : k₁ = k₂ ∧ d₁ = d₂ :=
  lp_append_inj h₁ h₂ h

theorem hmacSym_byteOk {key data : Bytes} (hk : ByteOk key) (hd : ByteOk data) :
    ByteOk (hmacSym key data) := by
  intro b hb
  rcases List.mem_append.1 hb with h3 | h3
  · exact lp_byteOk hk b h3
  · exact hd b h3

theorem hmacSym_ne_nil (key data : Bytes) : hmacSym key data ≠ [] := by
  simp [hmacSym, lp, be4]

/-- GCM nonce size (`gcm.NonceSize()` for AES-GCM). -/
def gcmNonceSize : Nat := 12

/-- Modelled: AES-256-GCM seal (`cipher.AEAD.Seal`, external) as an ideal
AEAD: the ciphertext determines key, nonce and plaintext injectively, and
`open` accepts exactly the ciphertexts `seal` produces.  Realized
executably by a length-prefixed header binding key and nonce, the
length-prefixed plaintext, and the plaintext repeated, so that
authentication is checkable and, as with a real 16-byte tag, any local
corruption is caught. -/
def gcmSeal (key nonce p : Bytes) : Bytes := lp key ++ lp nonce ++ lp p ++ p

/-- Modelled: AES-256-GCM open (`cipher.AEAD.Open`, external): accepts a
ciphertext only when it parses as `gcmSeal key nonce p` for the expected
key and nonce, returning `p`; fails closed otherwise. -/
def gcmOpen (key nonce ct : Bytes) : Option Bytes :=
  match rdLp ct with
  | none => none
  | some (k, r₁) =>
      if k = key then
        match rdLp r₁ with
        | none => none
        | some (n, r₂) =>
            if n = nonce then
              match rdLp r₂ with
              | none => none
              | some (p, r₃) => if r₃ = p then some p else none
            else none
      else none

theorem gcmOpen_gcmSeal (key nonce p : Bytes)
    (hk : key.length < 2 ^ 32) (hn : nonce.length < 2 ^ 32)
    (hp : p.length < 2 ^ 32) :
    gcmOpen key nonce (gcmSeal key nonce p) = some p := by
  have h1 : gcmSeal key nonce p = lp key ++ (lp nonce ++ (lp p ++ p)) := by
    simp [gcmSeal, List.append_assoc]
  rw [h1]
  simp [gcmOpen, rdLp_lp key hk, rdLp_lp nonce hn, rdLp_lp p hp]

/-- A successful `rdLp` on a genuine byte string reconstructs the input as
a length-prefixed block. -/
theorem rdLp_some {bs a r : Bytes} (hbytes : ByteOk bs)
    (h : rdLp bs = some (a, r)) :
    bs = lp a ++ r ∧ a.length < 2 ^ 32 ∧ ByteOk a ∧ ByteOk r := by
  rcases bs with _ | ⟨b₀, _ | ⟨b₁, _ | ⟨b₂, _ | ⟨b₃, rest⟩⟩⟩⟩ <;>
    simp only [rdLp, rdBe4] at h
  · exact absurd h (by simp)
  · exact absurd h (by simp)
  · exact absurd h (by simp)
  · exact absurd h (by simp)
  have hb0 : b₀ < 256 := hbytes b₀ (by simp)
  have hb1 : b₁ < 256 := hbytes b₁ (by simp)
  have hb2 : b₂ < 256 := hbytes b₂ (by simp)
  have hb3 : b₃ < 256 := hbytes b₃ (by simp)
  have hrest : ByteOk rest := fun x hx => hbytes x (by simp [hx])
  set n := b₀ * 2 ^ 24 + b₁ * 2 ^ 16 + b₂ * 2 ^ 8 + b₃ with hn
  by_cases hle : n ≤ rest.length
  · rw [if_pos hle] at h
    obtain ⟨rfl, rfl⟩ : rest.take n = a ∧ rest.drop n = r := by simpa using h
    refine ⟨?_, ?_, ?_, ?_⟩
    · have hlen : (rest.take n).length = n := by
        simp [List.length_take]
        omega
      simp only [lp, hlen, be4]
      have e0 : n / 2 ^ 24 % 256 = b₀ := by omega
      have e1 : n / 2 ^ 16 % 256 = b₁ := by omega
      have e2 : n / 2 ^ 8 % 256 = b₂ := by omega
      have e3 : n % 256 = b₃ := by omega
      rw [e0, e1, e2, e3]
      simp
    · have : (rest.take n).length ≤ n := by simp [List.length_take]
      omega
    · exact fun x hx => hrest x (List.mem_of_mem_take hx)
    · exact fun x hx => hrest x (List.mem_of_mem_drop hx)
  · rw [if_neg hle] at h
    exact absurd h (by simp)

/-- A successful `gcmOpen` on genuine bytes means the ciphertext is
exactly a seal of the returned plaintext under the expected key and
nonce: the ideal AEAD accepts nothing else. -/
theorem gcmOpen_some {key nonce ct p : Bytes} (hbytes : ByteOk ct)
    (h : gcmOpen key nonce ct = some p) :
    ct = gcmSeal key nonce p := by
  unfold gcmOpen at h
  split at h
  · exact absurd h (by simp)
  next k r₁ h1 =>
  obtain ⟨hct, hklen, hkb, hr₁b⟩ := rdLp_some hbytes h1
  split at h
  swap
  · exact absurd h (by simp)
  next hk =>
  split at h
  · exact absurd h (by simp)
  next n r₂ h2 =>
  obtain ⟨hr₁, hnlen, hnb, hr₂b⟩ := rdLp_some hr₁b h2
  split at h
  swap
  · exact absurd h (by simp)
  next hn =>
  split at h
  · exact absurd h (by simp)
  next q r₃ h3 =>
  obtain ⟨hr₂, hqlen, hqb, hr₃b⟩ := rdLp_some hr₂b h3
  split at h
  swap
  · exact absurd h (by simp)
  next hr =>
  obtain rfl : q = p := by simpa using h
  subst hk hn hr hr₂ hr₁
  rw [hct]
  simp [gcmSeal, List.append_assoc]

theorem gcmSeal_length (key nonce p : Bytes) :
    (gcmSeal key nonce p).length =
      12 + key.length + nonce.length + 2 * p.length := by
  simp [gcmSeal, lp_length, List.length_append]
  omega

theorem gcmSeal_byteOk {key nonce p : Bytes}
    (hk : ByteOk key) (hn : ByteOk nonce) (hp : ByteOk p) :
    ByteOk (gcmSeal key nonce p) := by
  intro b hb
  simp only [gcmSeal, List.append_assoc, List.mem_append] at hb
  rcases hb with h3 | h3 | h3 | h3
  · exact lp_byteOk hk b h3
  · exact lp_byteOk hn b h3
  · exact lp_byteOk hp b h3
  · exact hp b h3

/-! ### The encoding engine (`lib/encoding`, src/unnamed/part_012)

`Encoder` carries the derived key; the GCM construct is determined by it.
`Encode`/`Decode` correspond to `Encoder.Encode`/`Encoder.Decode`;
`sign`/`verify`/`encrypt`/`decrypt` to the unexported helpers.  `encrypt`'s
fresh random nonce (`crypto/rand`) is modelled as an explicit parameter;
theorems quantify over 12-byte nonces. -/

/-- Classified failures of the encoding engine.  The sentinel-error version
of `lib/encoding` is absent from src (only its tests and the `encoder.go`
wrapper remain), so constructors follow the distinct error values of
src/unnamed/part_012: missing separator, base64 corrupt-input, MAC
mismatch, short ciphertext, AEAD open failure, msgpack failure. -/
inductive EncError where
  | missingSeparator
  | base64
  | sigInvalid
  | tooShort
  | gcmFail
  | msgpackBad
deriving DecidableEq

/-- `strings.SplitN(s, ".", 2)`: split at the first dot, if any. -/
def splitFirstDot : Bytes → Option (Bytes × Bytes)
  | [] => none
  | c :: rest =>
      if c = 46 then some ([], rest)
      else (splitFirstDot rest).map (fun p => (c :: p.1, p.2))

theorem splitFirstDot_eq_none {s : Bytes} (h : 46 ∉ s) :
    splitFirstDot s = none := by
  induction s with
  | nil => rfl
  | cons c rest ih =>
      have hc : c ≠ 46 := fun hc => h (hc ▸ List.mem_cons_self c rest)
      have hrest : 46 ∉ rest := fun hr => h (List.mem_cons_of_mem c hr)
      simp [splitFirstDot, hc, ih hrest]

theorem splitFirstDot_append {P S : Bytes} (hP : 46 ∉ P) :
    splitFirstDot (P ++ 46 :: S) = some (P, S) := by
  induction P with
  | nil => simp [splitFirstDot]
  | cons c rest ih =>
      have hc : c ≠ 46 := fun hc => hP (hc ▸ List.mem_cons_self c rest)
      have hrest : 46 ∉ rest := fun hr => hP (List.mem_cons_of_mem c hr)
      simp [splitFirstDot, hc, ih hrest]

/-- The encoding engine (`Encoder` of lib/encoding): holds the derived
32-byte key; the AES-GCM construct is a pure function of it. -/
structure Encoder where
  key : Bytes
deriving DecidableEq

/-- Key derivation inside `NewEncoder`: secrets shorter than 32 bytes are
replaced by their SHA-256 digest. -/
def deriveKey (secret : Bytes) : Bytes :=
  if secret.length < 32 then sha256sym secret else secret

/-- `NewEncoder`: derive the key, then build the AES cipher and GCM.
`aes.NewCipher` accepts exactly 16-, 24- or 32-byte keys and fails with
`KeySizeError` otherwise; `cipher.NewGCM` then always succeeds for AES. -/
def NewEncoder (secret : Bytes) : Except (List Nat) Encoder :=
  let key := deriveKey secret
  if key.length = 16 ∨ key.length = 24 ∨ key.length = 32 then
    .ok ⟨key⟩
  else
    .error key

/-- `Encoder.sign`: `base64url(data) + "." + base64url(mac)`. -/
def Encoder.sign (e : Encoder) (data : Bytes) : Bytes :=
  b64encode data ++ 46 :: b64encode (hmacSym e.key data)

/-- `Encoder.verify`: split at the dot, decode both halves, recompute the
MAC over the payload and compare. -/
def Encoder.verify (e : Encoder) (encoded : Bytes) : Except EncError Bytes :=
  match splitFirstDot encoded with
  | none => .error .missingSeparator
  | some (p, q) =>
      match b64decode p with
      | none => .error .base64
      | some data =>
          match b64decode q with
          | none => .error .base64
          | some sig =>
              if sig = hmacSym e.key data then .ok data else .error .sigInvalid

/-- `Encoder.encrypt`: seal under a fresh nonce, prepend the nonce,
base64url the result. -/
def Encoder.encrypt (e : Encoder) (nonce data : Bytes) : Bytes :=
  b64encode (nonce ++ gcmSeal e.key nonce data)

/-- `Encoder.decrypt`: base64url-decode, split off the nonce, open. -/
def Encoder.decrypt (e : Encoder) (encoded : Bytes) : Except EncError Bytes :=
  match b64decode encoded with
  | none => .error .base64
  | some ct =>
      if ct.length < gcmNonceSize then .error .tooShort
      else
        match gcmOpen e.key (ct.take gcmNonceSize) (ct.drop gcmNonceSize) with
        | none => .error .gcmFail
        | some p => .ok p

/-! ### A representative generated props type

The round-trip and tamper claims quantify over "props of a type
implementing Encodable/Decodable".  Generated `HXEncode`/`HXDecode`
methods follow the field templates of the generator
(src/unnamed/part_014, `encodeFieldCode`/`decodeFieldCode`).  `Props`
here is a representative generated shape covering the scalar kinds and
both field flags: an int64, a string, a bool, an excluded field
(never serialized) and an omit-if-empty string. -/

structure Props where
  id : Int
  name : Bytes
  flag : Bool
  secret : Bytes
  note : Bytes
deriving DecidableEq

/-- The fresh zero value `reflect.New` produces before decoding. -/
def zeroProps : Props := ⟨0, [], false, [], []⟩

/-- Key "id". -/
def kId : Bytes := [105, 100]

/-- Key "name". -/
def kName : Bytes := [110, 97, 109, 101]

/-- Key "flag". -/
def kFlag : Bytes := [102, 108, 97, 103]

/-- Key "note". -/
def kNote : Bytes := [110, 111, 116, 101]

/-- Generated `HXEncode`: every non-excluded field under its key; the
omit-if-empty field only when non-zero; the excluded field never. -/
def Props.hxEncode (p : Props) : MapData :=
  [(kId, .mInt p.id), (kName, .mStr p.name), (kFlag, .mBool p.flag)] ++
    (if p.note = [] then [] else [(kNote, .mStr p.note)])

/-- `m[key]` on the decoded map. -/
def lookupKey (m : MapData) (k : Bytes) : Option MVal :=
  (m.find? (fun kv => decide (kv.1 = k))).map (fun kv => kv.2)

/-- Generated helper `toInt64`: numeric conversions, zero for other types. -/
def toInt64 : MVal → Int
  | .mInt n => n
  | _ => 0

/-- Generated `HXDecode` applied to target `p`: each present key updates
its field (with a type assertion for strings and bools, `toInt64` for the
integer); absent keys leave the target's value; the excluded field is
never touched. -/
def Props.hxDecode (m : MapData) (p : Props) : Props where
  id := match lookupKey m kId with
    | some v => toInt64 v
    | none => p.id
  name := match lookupKey m kName with
    | some (.mStr s) => s
    | _ => p.name
  flag := match lookupKey m kFlag with
    | some (.mBool b) => b
    | _ => p.flag
  secret := p.secret
  note := match lookupKey m kNote with
    | some (.mStr s) => s
    | _ => p.note

/-- `Encoder.Encode`: `HXEncode`, msgpack-marshal, then sign or encrypt
depending on the sensitive flag.  The fresh random nonce used by the
encrypted mode is an explicit parameter (ignored by the signed mode). -/
def Encoder.Encode (e : Encoder) (nonce : Bytes) (p : Props) (sensitive : Bool) :
    Bytes :=
  let data := msgpackMarshal p.hxEncode
  if sensitive then e.encrypt nonce data else e.sign data

/-- `Encoder.Decode` up to the decoded map: verify or decrypt, then
msgpack-unmarshal. -/
def Encoder.DecodeMap (e : Encoder) (encoded : Bytes) (sensitive : Bool) :
    Except EncError MapData :=
  match (if sensitive then e.decrypt encoded else e.verify encoded) with
  | .error er => .error er
  | .ok packed =>
      match msgpackUnmarshal packed with
      | none => .error .msgpackBad
      | some m => .ok m

/-- `Encoder.Decode`: decode the map and apply `HXDecode` to the target. -/
def Encoder.Decode (e : Encoder) (encoded : Bytes) (sensitive : Bool)
    (target : Props) : Except EncError Props :=
  (e.DecodeMap encoded sensitive).map (fun m => Props.hxDecode m target)

/-! ### hxcmp sentinel errors (src/errors.go) and the decode-error wrapper -/

/-- The hxcmp error domain: the five sentinels of src/errors.go plus
`other`, standing for any non-sentinel Go error. -/
inductive HxError where
  | notFound
  | decryptFailed
  | signatureInvalid
  | invalidFormat
  | hydrationFailed
  | other
deriving DecidableEq

/-- `IsNotFound` (src/errors.go). -/
def IsNotFound : HxError → Bool
  | .notFound => true
  | _ => false

/-- `IsDecryptionError` (src/errors.go): decrypt or signature failures
only; `ErrInvalidFormat` is deliberately not included. -/
def IsDecryptionError : HxError → Bool
  | .decryptFailed => true
  | .signatureInvalid => true
  | _ => false

/-- Modelled from the spec: the classification of encoding-engine errors
into hxcmp sentinels.  The current `lib/encoding` (with sentinel errors)
and `WrapDecodeError` are absent from src — only their tests
(src/unnamed/part_012 first half, src/unnamed/part_024) and the wrapper
`wrapEncodingError` (src/encoder.go) remain — so the mapping follows
spec section 7: missing separator, invalid base64, and under-length or
malformed payloads are `InvalidFormat`; a MAC mismatch is
`SignatureInvalid`; an AEAD open failure is `DecryptFailed`. -/
def wrapDecodeError : EncError → HxError
  | .missingSeparator => .invalidFormat
  | .base64 => .invalidFormat
  | .sigInvalid => .signatureInvalid
  | .tooShort => .invalidFormat
  | .gcmFail => .decryptFailed
  | .msgpackBad => .invalidFormat

/-- The default `OnError` callback installed by `NewRegistry`
(src/unnamed/part_023): 404 for not-found, 400 for decryption errors,
500 otherwise. -/
def defaultOnError (e : HxError) : Nat :=
  if IsNotFound e then 404
  else if IsDecryptionError e then 400
  else 500

/-! ### Round-trip infrastructure -/

/-- Well-formedness of props for the Go types they model: the int64 in
range, strings made of bytes.  The length bound keeps marshalled payloads
within the str32/4-byte-length wire forms of the model. -/
def PropsOk (p : Props) : Prop :=
  -(2 ^ 63) ≤ p.id ∧ p.id < 2 ^ 63 ∧
  ByteOk p.name ∧ p.name.length < 2 ^ 30 ∧
  ByteOk p.note ∧ p.note.length < 2 ^ 30

instance : DecidablePred PropsOk := fun p => by
  unfold PropsOk
  infer_instance

theorem hxEncode_mapOk (p : Props) (hp : PropsOk p) : MapOk p.hxEncode := by
  obtain ⟨h1, h2, h3, h4, h5, h6⟩ := hp
  have hkId : ByteOk kId ∧ kId.length < 2 ^ 32 := by decide
  have hkName : ByteOk kName ∧ kName.length < 2 ^ 32 := by decide
  have hkFlag : ByteOk kFlag ∧ kFlag.length < 2 ^ 32 := by decide
  have hkNote : ByteOk kNote ∧ kNote.length < 2 ^ 32 := by decide
  constructor
  · by_cases hn : p.note = [] <;> simp [Props.hxEncode, hn]
  · intro kv hkv
    by_cases hn : p.note = [] <;> simp [Props.hxEncode, hn] at hkv
    · rcases hkv with rfl | rfl | rfl
      · exact ⟨hkId, by constructor <;> omega⟩
      · exact ⟨hkName, ⟨h3, by omega⟩⟩
      · exact ⟨hkFlag, trivial⟩
    · rcases hkv with rfl | rfl | rfl | rfl
      · exact ⟨hkId, by constructor <;> omega⟩
      · exact ⟨hkName, ⟨h3, by omega⟩⟩
      · exact ⟨hkFlag, trivial⟩
      · exact ⟨hkNote, ⟨h5, by omega⟩⟩

/-- Decoding the generated map into a fresh zero target restores every
serialized field and leaves the excluded field zero. -/
theorem hxDecode_hxEncode (p : Props) :
    Props.hxDecode p.hxEncode zeroProps =
      { id := p.id, name := p.name, flag := p.flag, secret := [], note := p.note } := by
  by_cases hn : p.note = []
  · simp [Props.hxDecode, Props.hxEncode, hn, lookupKey, List.find?,
      kId, kName, kFlag, kNote, toInt64, zeroProps]
  · simp [Props.hxDecode, Props.hxEncode, hn, lookupKey, List.find?,
      kId, kName, kFlag, kNote, toInt64, zeroProps]

theorem msgpackMarshal_hxEncode_length (p : Props) :
    (msgpackMarshal p.hxEncode).length ≤ 70 + p.name.length + p.note.length := by
  by_cases hn : p.note = [] <;>
    simp [msgpackMarshal, Props.hxEncode, hn, encEntries, encEntry, encVal,
      lp_length, be4, be8, kId, kName, kFlag, kNote, List.length_append] <;>
    omega

theorem verify_sign (key data : Bytes) (hkb : ByteOk key) (hdb : ByteOk data) :
    Encoder.verify ⟨key⟩ (Encoder.sign ⟨key⟩ data) = .ok data := by
  unfold Encoder.sign Encoder.verify
  simp only [splitFirstDot_append (dot_not_mem_b64encode data),
    b64decode_b64encode data hdb,
    b64decode_b64encode (hmacSym key data) (hmacSym_byteOk hkb hdb)]
  simp only [if_true]

theorem decrypt_encrypt (key nonce data : Bytes) (hkb : ByteOk key)
    (hkl : key.length < 2 ^ 32) (hnb : ByteOk nonce)
    (hnl : nonce.length = gcmNonceSize) (hdb : ByteOk data)
    (hdl : data.length < 2 ^ 32) :
    Encoder.decrypt ⟨key⟩ (Encoder.encrypt ⟨key⟩ nonce data) = .ok data := by
  unfold Encoder.encrypt Encoder.decrypt
  have hcat : ByteOk (nonce ++ gcmSeal key nonce data) := by
    intro b hb
    rcases List.mem_append.1 hb with h3 | h3
    · exact hnb b h3
    · exact gcmSeal_byteOk hkb hnb hdb b h3
  simp only [b64decode_b64encode _ hcat]
  have hlen : ¬(nonce ++ gcmSeal key nonce data).length < gcmNonceSize := by
    simp only [List.length_append, gcmSeal_length, gcmNonceSize]
    omega
  rw [if_neg hlen]
  have ht : (nonce ++ gcmSeal key nonce data).take gcmNonceSize = nonce := by
    rw [show gcmNonceSize = nonce.length from hnl.symm]
    exact List.take_left nonce _
  have hd : (nonce ++ gcmSeal key nonce data).drop gcmNonceSize =
      gcmSeal key nonce data := by
    rw [show gcmNonceSize = nonce.length from hnl.symm]
    exact List.drop_left nonce _
  rw [ht, hd]
  simp only [gcmOpen_gcmSeal key nonce data hkl (by rw [hnl]; decide) hdl]

theorem DecodeMap_Encode (key : Bytes) (hkb : ByteOk key)
    (hkl : key.length < 2 ^ 32) (p : Props) (hp : PropsOk p)
    (sensitive : Bool) (nonce : Bytes) (hnb : ByteOk nonce)
    (hnl : nonce.length = gcmNonceSize) :
    Encoder.DecodeMap ⟨key⟩ (Encoder.Encode ⟨key⟩ nonce p sensitive) sensitive =
      .ok p.hxEncode := by
  have hmap := hxEncode_mapOk p hp
  have hdb := msgpackMarshal_byteOk p.hxEncode hmap
  have hdl : (msgpackMarshal p.hxEncode).length < 2 ^ 32 := by
    have := msgpackMarshal_hxEncode_length p
    obtain ⟨_, _, _, h4, _, h6⟩ := hp
    omega
  rcases sensitive with _ | _
  · have h1 : Encoder.Encode ⟨key⟩ nonce p false =
        Encoder.sign ⟨key⟩ (msgpackMarshal p.hxEncode) := rfl
    have h2 : ∀ s, Encoder.DecodeMap ⟨key⟩ s false =
        match Encoder.verify ⟨key⟩ s with
        | .error er => .error er
        | .ok packed =>
            match msgpackUnmarshal packed with
            | none => .error .msgpackBad
            | some m => .ok m := fun s => rfl
    simp only [h1, h2, verify_sign key _ hkb hdb,
      msgpackUnmarshal_msgpackMarshal p.hxEncode hmap]
  · have h1 : Encoder.Encode ⟨key⟩ nonce p true =
        Encoder.encrypt ⟨key⟩ nonce (msgpackMarshal p.hxEncode) := rfl
    have h2 : ∀ s, Encoder.DecodeMap ⟨key⟩ s true =
        match Encoder.decrypt ⟨key⟩ s with
        | .error er => .error er
        | .ok packed =>
            match msgpackUnmarshal packed with
            | none => .error .msgpackBad
            | some m => .ok m := fun s => rfl
    simp only [h1, h2, decrypt_encrypt key nonce _ hkb hkl hnb hnl hdb hdl,
      msgpackUnmarshal_msgpackMarshal p.hxEncode hmap]

/-- C1: for every props value of an Encodable/Decodable type and both
security modes, decoding the string produced by `Encode` into a fresh
zero-valued target succeeds and yields a value equal to the original on
every serialized (non-excluded) field, while excluded fields are
zero-valued after decode regardless of their value before encode. -/
theorem claim_C1_roundtrip (key : Bytes) (hkb : ByteOk key)
    (hkl : key.length < 2 ^ 32) (p : Props) (hp : PropsOk p)
    (sensitive : Bool) (nonce : Bytes) (hnb : ByteOk nonce)
    (hnl : nonce.length = gcmNonceSize) :
    Encoder.Decode ⟨key⟩ (Encoder.Encode ⟨key⟩ nonce p sensitive) sensitive
        zeroProps =
      .ok { id := p.id, name := p.name, flag := p.flag, secret := [],
            note := p.note } := by
  unfold Encoder.Decode
  rw [DecodeMap_Encode key hkb hkl p hp sensitive nonce hnb hnl]
  simp only [Except.map, hxDecode_hxEncode p]

theorem claim_C1_roundtrip_witness :
    Encoder.Decode ⟨List.replicate 32 7⟩
        (Encoder.Encode ⟨List.replicate 32 7⟩ (List.replicate 12 3)
          ⟨5, [104, 105], true, [9, 9], [1]⟩ true) true zeroProps =
      .ok ⟨5, [104, 105], true, [], [1]⟩ :=
  claim_C1_roundtrip (List.replicate 32 7) (by decide) (by decide)
    ⟨5, [104, 105], true, [9, 9], [1]⟩ (by decide) true
    (List.replicate 12 3) (by decide) (by decide)

/-! ### Route identity and registration (src/component.go, src/unnamed/part_023)

`componentHash` feeds `fmt.Sprintf("%s:%d:%s", filepath.Base(file), line,
name)` to SHA-256 and keeps the first 8 hex characters.  Following the
spec's own modelling note, the `runtime.Caller` call-site identity
(`base(file):line`) is an explicit string parameter (`none` models the
introspection-unavailable fallback, which hashes the name alone).  The
short hash is idealized as collision-free. -/

/-- Modelled: SHA-256 truncated to 4 bytes / 8 hex characters
(`hex.EncodeToString(h[:4])`, external primitive plus truncation) as an
ideal collision-free short hash, per the spec's "overwhelming
probability" guarantee made absolute; realized executably as an injective
function of the hashed string. -/
def shortHashIdeal (input : Bytes) : Bytes := input

/-- `componentHash`: hash "site:name" when the call site is known, the
bare name otherwise. -/
def componentHash (site : Option Bytes) (name : Bytes) : Bytes :=
  match site with
  | some s => shortHashIdeal (s ++ [58] ++ name)
  | none => shortHashIdeal name

/-- The prefix `New` assigns: `"/_c/" + name + "-" + componentHash(...)`. -/
def newPrefix (site : Option Bytes) (name : Bytes) : Bytes :=
  [47, 95, 99, 47] ++ name ++ [45] ++ componentHash site name

/-- `Registry.registerComponent`, restricted to its prefix bookkeeping: a
second registration of an already-present prefix panics
("hxcmp: prefix collision"); otherwise the component is added. -/
def registerComponent (components : List Bytes) (routePrefix : Bytes) :
    Except Unit (List Bytes) :=
  if routePrefix ∈ components then .error () else .ok (routePrefix :: components)

/-! ### Dispatch models (src/unnamed/part_023 `handleRequest`/`Handler`,
src/unnamed/part_014 generated `HXServeHTTP`)

Requests carry only the fields the dispatch code reads.  `subPath` is the
URL path with the component prefix and a leading slash already stripped,
as both dispatchers do.  Handler invocation and result folding are
abstracted to an `actionCall` trace event: no claim concerns the fold.
The trace records which lifecycle steps ran. -/

inductive Method where
  | GET
  | HEAD
  | POST
  | PUT
  | DELETE
  | PATCH
deriving DecidableEq

structure Request where
  method : Method
  hxRequestHeader : Bytes
  queryP : Bytes
  formP : Bytes
  subPath : Bytes
deriving DecidableEq

/-- Lifecycle trace events. -/
inductive Ev where
  | decodeAttempt
  | hydrateCall
  | onErrorCall
  | renderCall
  | actionCall
  | notFoundResp
deriving DecidableEq

structure HttpResp where
  status : Nat
deriving DecidableEq

/-- "true", the required value of the HX-Request header. -/
def trueBytes : Bytes := [116, 114, 117, 101]

/-- The hydrate-then-route tail of `Registry.handleRequest`: hydration
always runs (once, before routing); a hydration error goes to `OnError`;
`GET` with empty sub-path renders; otherwise the action whose name and
method match is invoked; otherwise 404 without the error callback. -/
def handleAfterDecode (hydrate : Props → Except HxError Props)
    (onError : HxError → Nat) (actions : List (Bytes × Method))
    (req : Request) (props : Props) (tr : List Ev) : HttpResp × List Ev :=
  match hydrate props with
  | .error er => (⟨onError er⟩, tr ++ [Ev.hydrateCall, Ev.onErrorCall])
  | .ok _ =>
      if req.method = Method.GET ∧ (req.subPath = [] ∨ req.subPath = [47]) then
        (⟨200⟩, tr ++ [Ev.hydrateCall, Ev.renderCall])
      else
        match actions.find? (fun a =>
            decide (a.1 = req.subPath) && decide (a.2 = req.method)) with
        | some _ => (⟨200⟩, tr ++ [Ev.hydrateCall, Ev.actionCall])
        | none => (⟨404⟩, tr ++ [Ev.hydrateCall, Ev.notFoundResp])

/-- `Registry.handleRequest` (reflection path): token from the `p` query
value, or the form value on non-GET requests; empty token skips decoding
and proceeds with fresh zero props; a decode failure is wrapped
(`WrapDecodeError`) and routed to `OnError`. -/
def handleRequest (e : Encoder) (sensitive : Bool)
    (hydrate : Props → Except HxError Props) (onError : HxError → Nat)
    (actions : List (Bytes × Method)) (req : Request) : HttpResp × List Ev :=
  let encoded := if req.queryP = [] ∧ req.method ≠ Method.GET then req.formP
    else req.queryP
  if encoded = [] then
    handleAfterDecode hydrate onError actions req zeroProps []
  else
    match Encoder.Decode e encoded sensitive zeroProps with
    | .error er => (⟨onError (wrapDecodeError er)⟩, [Ev.decodeAttempt, Ev.onErrorCall])
    | .ok props => handleAfterDecode hydrate onError actions req props [Ev.decodeAttempt]

/-- `Registry.Handler`: the CSRF guard wrapping the mux — mutating methods
(anything but GET/HEAD) without `HX-Request: true` get an immediate 403
and nothing else runs. -/
def registryHandler (e : Encoder) (sensitive : Bool)
    (hydrate : Props → Except HxError Props) (onError : HxError → Nat)
    (actions : List (Bytes × Method)) (req : Request) : HttpResp × List Ev :=
  if req.method ≠ Method.GET ∧ req.method ≠ Method.HEAD ∧
      req.hxRequestHeader ≠ trueBytes then
    (⟨403⟩, [])
  else
    handleRequest e sensitive hydrate onError actions req

/-- The hydrate-then-route tail of the generated `HXServeHTTP`
(src/unnamed/part_014 template): a hydration error is answered with a
hardcoded 500 ("Hydration failed") — the error callback is not consulted
(the generated code has no access to it). -/
def genAfterDecode (hydrate : Props → Except HxError Props)
    (actions : List (Bytes × Method)) (req : Request) (props : Props)
    (tr : List Ev) : HttpResp × List Ev :=
  match hydrate props with
  | .error _ => (⟨500⟩, tr ++ [Ev.hydrateCall])
  | .ok _ =>
      if req.method = Method.GET ∧ (req.subPath = [] ∨ req.subPath = [47]) then
        (⟨200⟩, tr ++ [Ev.hydrateCall, Ev.renderCall])
      else
        match actions.find? (fun a =>
            decide (a.1 = req.subPath) && decide (a.2 = req.method)) with
        | some _ => (⟨200⟩, tr ++ [Ev.hydrateCall, Ev.actionCall])
        | none => (⟨404⟩, tr ++ [Ev.hydrateCall, Ev.notFoundResp])

/-- The generated `HXServeHTTP` (src/unnamed/part_014 template): token
from the query only; a decode failure is answered with a hardcoded 400
("Invalid parameters") — the error callback is not consulted. -/
def genServeHTTP (e : Encoder) (sensitive : Bool)
    (hydrate : Props → Except HxError Props)
    (actions : List (Bytes × Method)) (req : Request) : HttpResp × List Ev :=
  if req.queryP = [] then
    genAfterDecode hydrate actions req zeroProps []
  else
    match Encoder.Decode e req.queryP sensitive zeroProps with
    | .error _ => (⟨400⟩, [Ev.decodeAttempt])
    | .ok props => genAfterDecode hydrate actions req props [Ev.decodeAttempt]

/-! ### Flash rendering (src/flash.go) -/

/-- `html.EscapeString` (Go standard library) applied bytewise: the five
escaped characters are ASCII, so the byte-level model is exact. -/
def escByte (c : Nat) : Bytes :=
  if c = 38 then [38, 97, 109, 112, 59]
  else if c = 39 then [38, 35, 51, 57, 59]
  else if c = 60 then [38, 108, 116, 59]
  else if c = 62 then [38, 103, 116, 59]
  else if c = 34 then [38, 35, 51, 52, 59]
  else [c]

/-- `html.EscapeString` over a whole string. -/
def escapeString : Bytes → Bytes
  | [] => []
  | c :: rest => escByte c ++ escapeString rest

/-- A flash message: level and message. -/
structure Flash where
  level : Bytes
  message : Bytes
deriving DecidableEq

/-- `<div id="toasts" hx-swap-oob="beforeend">`. -/
def oobHeader : Bytes :=
  [60, 100, 105, 118, 32, 105, 100, 61, 34, 116, 111, 97, 115, 116, 115, 34,
   32, 104, 120, 45, 115, 119, 97, 112, 45, 111, 111, 98, 61, 34, 98, 101,
   102, 111, 114, 101, 101, 110, 100, 34, 62]

/-- `<div class="toast toast-`. -/
def toastOpen1 : Bytes :=
  [60, 100, 105, 118, 32, 99, 108, 97, 115, 115, 61, 34, 116, 111, 97, 115,
   116, 32, 116, 111, 97, 115, 116, 45]

/-- `" data-auto-dismiss="3000">`. -/
def toastOpen2 : Bytes :=
  [34, 32, 100, 97, 116, 97, 45, 97, 117, 116, 111, 45, 100, 105, 115, 109,
   105, 115, 115, 61, 34, 51, 48, 48, 48, 34, 62]

/-- `</div>`. -/
def divClose : Bytes := [60, 47, 100, 105, 118, 62]

/-- One toast div with escaped level and message. -/
def renderToast (f : Flash) : Bytes :=
  toastOpen1 ++ escapeString f.level ++ toastOpen2 ++ escapeString f.message ++
    divClose

/-- The toast list body. -/
def renderToasts : List Flash → Bytes
  | [] => []
  | f :: rest => renderToast f ++ renderToasts rest

/-- `RenderFlashesOOB` (src/flash.go): empty for no flashes, otherwise the
out-of-band wrapper around one toast per flash. -/
def RenderFlashesOOB (flashes : List Flash) : Bytes :=
  if flashes = [] then [] else oobHeader ++ renderToasts flashes ++ divClose

/-- Does `needle` occur at the start of `hay`? -/
def startsWithSeq : Bytes → Bytes → Bool
  | [], _ => true
  | _ :: _, [] => false
  | a :: as, b :: bs => a == b && startsWithSeq as bs

/-- Does `needle` occur anywhere in `hay`? (`strings.Contains`.) -/
def containsSeq (needle : Bytes) : Bytes → Bool
  | [] => decide (needle = [])
  | c :: rest => startsWithSeq needle (c :: rest) || containsSeq needle rest

/-! ### Claims C3 – C10 -/

/-- C3: for every signed-mode token string containing no `.` separator,
`Decode` fails with the InvalidFormat classification (the missing-separator
error, wrapped to `ErrInvalidFormat`), not SignatureInvalid, and the two
classifications are distinct values, so callers can distinguish them. -/
theorem claim_C3_missing_separator (e : Encoder) (s : Bytes) (target : Props)
    (h : 46 ∉ s) :
    Encoder.Decode e s false target = .error .missingSeparator ∧
    wrapDecodeError .missingSeparator = HxError.invalidFormat ∧
    HxError.invalidFormat ≠ HxError.signatureInvalid := by
  refine ⟨?_, rfl, by decide⟩
  unfold Encoder.Decode Encoder.DecodeMap Encoder.verify
  rw [splitFirstDot_eq_none h]
  rfl

theorem claim_C3_missing_separator_witness :
    Encoder.Decode ⟨[]⟩ [97, 98, 99] false zeroProps = .error .missingSeparator ∧
    wrapDecodeError .missingSeparator = HxError.invalidFormat ∧
    HxError.invalidFormat ≠ HxError.signatureInvalid :=
  claim_C3_missing_separator ⟨[]⟩ [97, 98, 99] zeroProps (by decide)

/-- C4: two components with the same name constructed at distinct call
sites get distinct route prefixes; the same call site and name always
produce the same prefix; and registering two components that resolve to
the same prefix is rejected at registration time (the second
`registerComponent` panics instead of shadowing the first). -/
theorem claim_C4_route_identity (name s₁ s₂ : Bytes) (hne : s₁ ≠ s₂) :
    newPrefix (some s₁) name ≠ newPrefix (some s₂) name ∧
    newPrefix (some s₁) name = newPrefix (some s₁) name ∧
    ∀ reg₁, registerComponent [] (newPrefix (some s₁) name) = .ok reg₁ →
      registerComponent reg₁ (newPrefix (some s₁) name) = .error () := by
  refine ⟨?_, rfl, ?_⟩
  · intro h
    simp only [newPrefix, componentHash, shortHashIdeal] at h
    have h₂ := List.append_cancel_left h
    have h₅ : s₁ ++ [58] = s₂ ++ [58] := List.append_cancel_right h₂
    exact hne (List.append_cancel_right h₅)
  · intro reg₁ hreg
    have : reg₁ = [newPrefix (some s₁) name] := by
      unfold registerComponent at hreg
      rw [if_neg (by simp)] at hreg
      simpa using hreg.symm
    subst this
    unfold registerComponent
    rw [if_pos (by simp)]

theorem claim_C4_route_identity_witness :
    newPrefix (some [98]) [97] ≠ newPrefix (some [99]) [97] ∧
    newPrefix (some [98]) [97] = newPrefix (some [98]) [97] ∧
    ∀ reg₁, registerComponent [] (newPrefix (some [98]) [97]) = .ok reg₁ →
      registerComponent reg₁ (newPrefix (some [98]) [97]) = .error () :=
  claim_C4_route_identity [97] [98] [99] (by decide)

/-- C6 counterexample: the default `OnError` installed by `NewRegistry`
maps an `ErrInvalidFormat` error to HTTP 500, not to 400 as the claim
states, because `IsDecryptionError` covers only `ErrDecryptFailed` and
`ErrSignatureInvalid`. -/
theorem claim_C6_counterexample :
    defaultOnError HxError.invalidFormat = 500 ∧
    defaultOnError HxError.invalidFormat ≠ 400 := by
  decide

/-- C6 amended: the default error callback maps NotFound to 404,
SignatureInvalid and DecryptFailed to 400, and every other error —
including InvalidFormat — to 500. -/
theorem claim_C6_default_policy :
    defaultOnError .notFound = 404 ∧
    defaultOnError .signatureInvalid = 400 ∧
    defaultOnError .decryptFailed = 400 ∧
    defaultOnError .invalidFormat = 500 ∧
    defaultOnError .hydrationFailed = 500 ∧
    defaultOnError .other = 500 := by
  decide

/-- C7: a request with a mutating method (neither GET nor HEAD) lacking
`HX-Request: true` is answered 403 immediately by `Registry.Handler`: the
result is the 403 response with an empty lifecycle trace, so token
decoding, hydration and action dispatch never ran. -/
theorem claim_C7_csrf_guard (e : Encoder) (sensitive : Bool)
    (hydrate : Props → Except HxError Props) (onError : HxError → Nat)
    (actions : List (Bytes × Method)) (req : Request)
    (hm₁ : req.method ≠ Method.GET) (hm₂ : req.method ≠ Method.HEAD)
    (hh : req.hxRequestHeader ≠ trueBytes) :
    registryHandler e sensitive hydrate onError actions req = (⟨403⟩, []) := by
  unfold registryHandler
  rw [if_pos ⟨hm₁, hm₂, hh⟩]

theorem claim_C7_csrf_guard_witness :
    registryHandler ⟨[]⟩ false (fun p => .ok p) defaultOnError []
        ⟨Method.POST, [], [], [], []⟩ = (⟨403⟩, []) :=
  claim_C7_csrf_guard ⟨[]⟩ false (fun p => .ok p) defaultOnError []
    ⟨Method.POST, [], [], [], []⟩ (by decide) (by decide) (by decide)

/-- C9: rendering one flash whose message is `<script>x</script>` as the
out-of-band fragment HTML-escapes level and message: the output contains
`&lt;script&gt;` and contains no literal `<script>` substring anywhere. -/
theorem claim_C9_flash_escaping :
    containsSeq [38, 108, 116, 59, 115, 99, 114, 105, 112, 116, 38, 103,
        116, 59]
      (RenderFlashesOOB [⟨[115, 117, 99, 99, 101, 115, 115],
        [60, 115, 99, 114, 105, 112, 116, 62, 120, 60, 47, 115, 99, 114,
         105, 112, 116, 62]⟩]) = true ∧
    containsSeq [60, 115, 99, 114, 105, 112, 116, 62]
      (RenderFlashesOOB [⟨[115, 117, 99, 99, 101, 115, 115],
        [60, 115, 99, 114, 105, 112, 116, 62, 120, 60, 47, 115, 99, 114,
         105, 112, 116, 62]⟩]) = false := by
  decide

/-- C10: when the token parameter `p` is absent (no query value and, for
non-GET requests, no form value), `handleRequest` skips token decoding
entirely and proceeds with zero props: no decode attempt appears in the
trace (so no InvalidFormat or other decode error can arise), hydration
still runs, and — hydration succeeding — the error callback is never
invoked. -/
theorem claim_C10_empty_token (e : Encoder) (sensitive : Bool)
    (hydrate : Props → Except HxError Props) (onError : HxError → Nat)
    (actions : List (Bytes × Method)) (req : Request) (q : Props)
    (hq : req.queryP = []) (hf : req.method ≠ Method.GET → req.formP = [])
    (hh : hydrate zeroProps = .ok q) :
    Ev.decodeAttempt ∉ (handleRequest e sensitive hydrate onError actions req).2 ∧
    Ev.hydrateCall ∈ (handleRequest e sensitive hydrate onError actions req).2 ∧
    Ev.onErrorCall ∉ (handleRequest e sensitive hydrate onError actions req).2 := by
  have henc : (if req.queryP = [] ∧ req.method ≠ Method.GET then req.formP
      else req.queryP) = [] := by
    by_cases hg : req.method = Method.GET
    · simp [hg, hq]
    · simp [hq, hg, hf hg]
  unfold handleRequest
  rw [henc]
  rw [if_pos rfl]
  unfold handleAfterDecode
  split
  next er herr =>
    rw [hh] at herr
    exact absurd herr (by simp)
  next q₂ hok =>
    split
    · exact ⟨by decide, by decide, by decide⟩
    · split
      · exact ⟨by decide, by decide, by decide⟩
      · exact ⟨by decide, by decide, by decide⟩

theorem claim_C10_empty_token_witness :
    Ev.decodeAttempt ∉ (handleRequest ⟨[]⟩ false (fun p => .ok p)
        defaultOnError [] ⟨Method.GET, trueBytes, [], [], []⟩).2 ∧
    Ev.hydrateCall ∈ (handleRequest ⟨[]⟩ false (fun p => .ok p)
        defaultOnError [] ⟨Method.GET, trueBytes, [], [], []⟩).2 ∧
    Ev.onErrorCall ∉ (handleRequest ⟨[]⟩ false (fun p => .ok p)
        defaultOnError [] ⟨Method.GET, trueBytes, [], [], []⟩).2 :=
  claim_C10_empty_token ⟨[]⟩ false (fun p => .ok p) defaultOnError []
    ⟨Method.GET, trueBytes, [], [], []⟩ zeroProps rfl (fun h => rfl) rfl

/-- C5 (code bug): on the generated-code path (`HXServeHTTP` from the
generator template), a failed token decode is answered with a hardcoded
400 and a failed hydration with a hardcoded 500, in both cases without
the registry's OnError callback ever being consulted — the generated
dispatcher does not even receive the callback — whereas the reflection
path (`Registry.handleRequest`) routes the same decode failure through
the callback, which alone decides the status. -/
theorem claim_C5_onerror_bug :
    (∀ (hydrate : Props → Except HxError Props) (actions : List (Bytes × Method)),
      genServeHTTP ⟨[]⟩ false hydrate actions ⟨Method.GET, trueBytes, [120], [], []⟩ =
        (⟨400⟩, [Ev.decodeAttempt])) ∧
    (∀ actions : List (Bytes × Method),
      genServeHTTP ⟨[]⟩ false (fun _ => .error HxError.other) actions
          ⟨Method.GET, trueBytes, [], [], []⟩ =
        (⟨500⟩, [Ev.hydrateCall])) ∧
    (∀ (onError : HxError → Nat) (actions : List (Bytes × Method)),
      handleRequest ⟨[]⟩ false (fun p => .ok p) onError actions
          ⟨Method.GET, trueBytes, [120], [], []⟩ =
        (⟨onError HxError.invalidFormat⟩, [Ev.decodeAttempt, Ev.onErrorCall])) := by
  exact ⟨fun hydrate actions => rfl, fun actions => rfl,
    fun onError actions => rfl⟩

/-- C8 counterexample: key setup does not accept an arbitrary-length
secret — a 33-byte secret is used as-is (no derivation, since it is not
under-length) and then rejected by the AES cipher constructor
(`aes.NewCipher`: invalid key size), so `NewEncoder` fails. -/
theorem claim_C8_counterexample :
    NewEncoder (List.replicate 33 1) = .error (List.replicate 33 1) := by
  rfl

/-- C8 amended: key setup accepts secrets up to 32 bytes (longer secrets
are rejected by the AES key-size check).  For every secret shorter than
the required 32 bytes, a fixed 32-byte key is derived via the one-way
hash, the raw under-length secret itself is never the key, constructing
the engine succeeds, and derivation is deterministic and
collision-free on distinct short secrets — so tokens encoded before a
process restart still decode after it under the same configured
secret. -/
theorem claim_C8_key_derivation (secret : Bytes) (hs : secret.length < 32)
    (hb : ByteOk secret) :
    NewEncoder secret = .ok ⟨sha256sym secret⟩ ∧
    (sha256sym secret).length = 32 ∧
    sha256sym secret ≠ secret ∧
    ByteOk (sha256sym secret) ∧
    (∀ s₂ : Bytes, s₂.length < 32 → sha256sym s₂ = sha256sym secret →
      s₂ = secret) := by
  refine ⟨?_, sha256sym_length secret, ?_, sha256sym_byteOk hb, ?_⟩
  · unfold NewEncoder deriveKey
    rw [if_pos hs, if_pos (Or.inr (Or.inr (sha256sym_length secret)))]
  · intro h
    have h1 := sha256sym_length secret
    rw [h] at h1
    omega
  · intro s₂ h₂ heq
    exact sha256sym_inj h₂ hs heq

theorem claim_C8_key_derivation_witness :
    NewEncoder [1, 2, 3] = .ok ⟨sha256sym [1, 2, 3]⟩ ∧
    (sha256sym [1, 2, 3]).length = 32 ∧
    sha256sym [1, 2, 3] ≠ [1, 2, 3] ∧
    ByteOk (sha256sym [1, 2, 3]) ∧
    (∀ s₂ : Bytes, s₂.length < 32 → sha256sym s₂ = sha256sym [1, 2, 3] →
      s₂ = [1, 2, 3]) :=
  claim_C8_key_derivation [1, 2, 3] (by decide) (by decide)

/-! ### C2 infrastructure: tampering with signed tokens -/

theorem b64decode_eq_none_of_invalid {l : Bytes} {c : Nat} (hc : c ∈ l)
    (hinv : b64inv c = none) : b64decode l = none := by
  rcases h : b64decode l with _ | bs
  · rfl
  · have hv := (b64decode_some_valid l bs h).1 c hc
    rw [hinv] at hv
    simp at hv

/-- The allowed outcomes of a signed-mode decode of a tampered token:
one of the three classified failures of the signed path, or success with
exactly the original payload. -/
def SignedTamperOk (r : Except EncError Bytes) (data : Bytes) : Prop :=
  r = .error .missingSeparator ∨ r = .error .base64 ∨ r = .error .sigInvalid ∨
    r = .ok data

/-- Substituting any single byte of a signed token leaves `verify` either
failing with a classified error or succeeding with exactly the original
payload — never succeeding with different data. -/
theorem verify_sign_set (key data : Bytes) (hkb : ByteOk key)
    (hkl : key.length < 2 ^ 32) (hdb : ByteOk data) (i c : Nat) :
    SignedTamperOk
      (Encoder.verify ⟨key⟩ ((Encoder.sign ⟨key⟩ data).set i c)) data := by
  set P := b64encode data with hP
  set S := b64encode (hmacSym key data) with hS
  have hPdot : 46 ∉ P := dot_not_mem_b64encode data
  have hSdot : 46 ∉ S := dot_not_mem_b64encode (hmacSym key data)
  have hsign : Encoder.sign ⟨key⟩ data = P ++ 46 :: S := rfl
  have hPdec : b64decode P = some data := b64decode_b64encode data hdb
  have hSdec : b64decode S = some (hmacSym key data) :=
    b64decode_b64encode _ (hmacSym_byteOk hkb hdb)
  rw [hsign]
  by_cases hi : i < (P ++ 46 :: S).length
  swap
  · rw [List.set_eq_of_length_le (by omega)]
    right; right; right
    exact verify_sign key data hkb hdb
  rcases Nat.lt_trichotomy i P.length with hiP | hiP | hiP
  · -- mutation inside the payload half
    rw [List.set_append_left _ _ hiP]
    by_cases hc46 : c = 46
    · subst hc46
      rw [List.set_eq_take_cons_drop _ hiP]
      have hassoc : (P.take i ++ 46 :: P.drop (i + 1)) ++ 46 :: S =
          P.take i ++ 46 :: (P.drop (i + 1) ++ 46 :: S) := by
        simp [List.append_assoc]
      rw [hassoc]
      have htk : 46 ∉ P.take i := fun h => hPdot (List.mem_of_mem_take h)
      unfold Encoder.verify
      rw [splitFirstDot_append htk]
      rcases hdec : b64decode (P.take i) with _ | d
      · right; left
        simp only [hdec]
      · have hnone : b64decode (P.drop (i + 1) ++ 46 :: S) = none :=
          b64decode_eq_none_of_invalid
            (by simp : (46 : Nat) ∈ P.drop (i + 1) ++ 46 :: S) b64inv_dot
        right; left
        simp only [hdec, hnone]
    · have hdot : 46 ∉ P.set i c := by
        intro h
        rcases List.mem_or_eq_of_mem_set h with h3 | h3
        · exact hPdot h3
        · exact hc46 h3.symm
      unfold Encoder.verify
      rw [splitFirstDot_append hdot]
      rcases hdec : b64decode (P.set i c) with _ | d
      · right; left
        simp only [hdec]
      · simp only [hdec, hSdec]
        by_cases hmac : hmacSym key data = hmacSym key d
        · have hd : data = d := (hmacSym_inj hkl hkl hmac).2
          subst hd
          rw [if_pos rfl]
          right; right; right
          rfl
        · rw [if_neg hmac]
          right; right; left
          rfl
  · -- mutation of the separator byte
    rw [List.set_append_right _ _ (by omega)]
    rw [show i - P.length = 0 from by omega]
    show SignedTamperOk (Encoder.verify ⟨key⟩ (P ++ c :: S)) data
    by_cases hc46 : c = 46
    · subst hc46
      right; right; right
      exact verify_sign key data hkb hdb
    · have hdot : 46 ∉ P ++ c :: S := by
        intro h
        rcases List.mem_append.1 h with h3 | h3
        · exact hPdot h3
        · rcases List.mem_cons.1 h3 with h4 | h4
          · exact hc46 h4.symm
          · exact hSdot h4
      left
      unfold Encoder.verify
      rw [splitFirstDot_eq_none hdot]
  · -- mutation inside the signature half
    rw [List.set_append_right _ _ (by omega)]
    rw [show i - P.length = (i - P.length - 1) + 1 from by omega]
    show SignedTamperOk
      (Encoder.verify ⟨key⟩ (P ++ 46 :: S.set (i - P.length - 1) c)) data
    unfold Encoder.verify
    rw [splitFirstDot_append hPdot]
    rcases hdec : b64decode (S.set (i - P.length - 1) c) with _ | s
    · right; left
      simp only [hPdec, hdec]
    · simp only [hPdec, hdec]
      by_cases hmac : s = hmacSym key data
      · rw [if_pos hmac]
        right; right; right
        rfl
      · rw [if_neg hmac]
        right; right; left
        rfl

/-- The props value a successful round-trip decode produces. -/
def rtProps (p : Props) : Props :=
  { id := p.id, name := p.name, flag := p.flag, secret := [], note := p.note }

theorem DecodeMap_signed (e : Encoder) (s : Bytes) :
    Encoder.DecodeMap e s false =
      match Encoder.verify e s with
      | .error er => .error er
      | .ok packed =>
          match msgpackUnmarshal packed with
          | none => .error .msgpackBad
          | some m => .ok m := rfl

theorem DecodeMap_encrypted (e : Encoder) (s : Bytes) :
    Encoder.DecodeMap e s true =
      match Encoder.decrypt e s with
      | .error er => .error er
      | .ok packed =>
          match msgpackUnmarshal packed with
          | none => .error .msgpackBad
          | some m => .ok m := rfl

theorem Decode_error_signed {e : Encoder} {s : Bytes} {er : EncError}
    (target : Props) (h : Encoder.verify e s = .error er) :
    Encoder.Decode e s false target = .error er := by
  unfold Encoder.Decode
  rw [DecodeMap_signed, h]
  rfl

theorem Decode_error_encrypted {e : Encoder} {s : Bytes} {er : EncError}
    (target : Props) (h : Encoder.decrypt e s = .error er) :
    Encoder.Decode e s true target = .error er := by
  unfold Encoder.Decode
  rw [DecodeMap_encrypted, h]
  rfl

theorem Decode_ok_signed {e : Encoder} {s : Bytes} (p : Props) (hp : PropsOk p)
    (h : Encoder.verify e s = .ok (msgpackMarshal p.hxEncode)) :
    Encoder.Decode e s false zeroProps = .ok (rtProps p) := by
  unfold Encoder.Decode
  rw [DecodeMap_signed, h]
  simp only [msgpackUnmarshal_msgpackMarshal p.hxEncode (hxEncode_mapOk p hp)]
  show Except.ok (Props.hxDecode p.hxEncode zeroProps) = _
  rw [hxDecode_hxEncode p]
  rfl

theorem Decode_ok_encrypted {e : Encoder} {s : Bytes} (p : Props) (hp : PropsOk p)
    (h : Encoder.decrypt e s = .ok (msgpackMarshal p.hxEncode)) :
    Encoder.Decode e s true zeroProps = .ok (rtProps p) := by
  unfold Encoder.Decode
  rw [DecodeMap_encrypted, h]
  simp only [msgpackUnmarshal_msgpackMarshal p.hxEncode (hxEncode_mapOk p hp)]
  show Except.ok (Props.hxDecode p.hxEncode zeroProps) = _
  rw [hxDecode_hxEncode p]
  rfl

/-- Cross-key, signed: a token signed under one key never verifies under a
different key — the recomputed MAC cannot match. -/
theorem verify_wrong_key (key₁ key₂ data : Bytes) (h₁b : ByteOk key₁)
    (h₁l : key₁.length < 2 ^ 32) (h₂l : key₂.length < 2 ^ 32)
    (hdb : ByteOk data) (hne : key₁ ≠ key₂) :
    Encoder.verify ⟨key₂⟩ (Encoder.sign ⟨key₁⟩ data) = .error .sigInvalid := by
  unfold Encoder.sign Encoder.verify
  rw [splitFirstDot_append (dot_not_mem_b64encode data)]
  simp only [b64decode_b64encode data hdb,
    b64decode_b64encode (hmacSym key₁ data) (hmacSym_byteOk h₁b hdb)]
  rw [if_neg (fun h => hne (hmacSym_inj h₁l h₂l h).1)]

/-- Cross-key, encrypted: a token sealed under one key never opens under a
different key. -/
theorem decrypt_wrong_key (key₁ key₂ nonce data : Bytes) (h₁b : ByteOk key₁)
    (h₁l : key₁.length < 2 ^ 32) (h₂l : key₂.length < 2 ^ 32)
    (hnb : ByteOk nonce) (hnl : nonce.length = gcmNonceSize)
    (hdb : ByteOk data) (hne : key₁ ≠ key₂) :
    Encoder.decrypt ⟨key₂⟩ (Encoder.encrypt ⟨key₁⟩ nonce data) =
      .error .gcmFail := by
  have hcat : ByteOk (nonce ++ gcmSeal key₁ nonce data) := by
    intro b hb
    rcases List.mem_append.1 hb with h3 | h3
    · exact hnb b h3
    · exact gcmSeal_byteOk h₁b hnb hdb b h3
  unfold Encoder.encrypt Encoder.decrypt
  simp only [b64decode_b64encode _ hcat]
  rw [if_neg (by simp only [List.length_append, gcmSeal_length, gcmNonceSize]; omega)]
  have ht : (nonce ++ gcmSeal key₁ nonce data).take gcmNonceSize = nonce := by
    rw [show gcmNonceSize = nonce.length from hnl.symm]
    exact List.take_left nonce _
  have hd : (nonce ++ gcmSeal key₁ nonce data).drop gcmNonceSize =
      gcmSeal key₁ nonce data := by
    rw [show gcmNonceSize = nonce.length from hnl.symm]
    exact List.drop_left nonce _
  rw [ht, hd]
  rcases hopen : gcmOpen key₂ nonce (gcmSeal key₁ nonce data) with _ | p
  · rfl
  · exfalso
    have hs := gcmOpen_some (gcmSeal_byteOk h₁b hnb hdb) hopen
    unfold gcmSeal at hs
    have h1 : lp key₁ ++ (lp nonce ++ (lp data ++ data)) =
        lp key₂ ++ (lp nonce ++ (lp p ++ p)) := by
      simpa [List.append_assoc] using hs
    exact hne (lp_append_inj h₁l h₂l h1).1

/-- Wrong mode: decoding a signed token as encrypted fails at base64 (the
separator dot is not a base64url character). -/
theorem decrypt_of_sign (key₁ key₂ data : Bytes) :
    Encoder.decrypt ⟨key₂⟩ (Encoder.sign ⟨key₁⟩ data) = .error .base64 := by
  unfold Encoder.sign Encoder.decrypt
  rw [b64decode_eq_none_of_invalid (l := _ ++ 46 :: _) (by simp) b64inv_dot]

/-- Wrong mode: decoding an encrypted token as signed fails with the
missing-separator (InvalidFormat) error — the token has no dot. -/
theorem verify_of_encrypt (key₁ key₂ nonce data : Bytes) :
    Encoder.verify ⟨key₂⟩ (Encoder.encrypt ⟨key₁⟩ nonce data) =
      .error .missingSeparator := by
  unfold Encoder.encrypt Encoder.verify
  rw [splitFirstDot_eq_none (dot_not_mem_b64encode _)]

/-- The classified failures of a truncated signed token. -/
def SignedFail (r : Except EncError Bytes) : Prop :=
  r = .error .missingSeparator ∨ r = .error .base64 ∨ r = .error .sigInvalid

/-- Truncating a signed token to any proper prefix always makes `verify`
fail with a classified error. -/
theorem verify_sign_take (key data : Bytes) (hkb : ByteOk key)
    (hkl : key.length < 2 ^ 32) (hdb : ByteOk data) (k : Nat)
    (hk : k < (Encoder.sign ⟨key⟩ data).length) :
    SignedFail (Encoder.verify ⟨key⟩ ((Encoder.sign ⟨key⟩ data).take k)) := by
  set P := b64encode data with hP
  set S := b64encode (hmacSym key data) with hS
  have hPdot : 46 ∉ P := dot_not_mem_b64encode data
  have hsign : Encoder.sign ⟨key⟩ data = P ++ 46 :: S := rfl
  have hPdec : b64decode P = some data := b64decode_b64encode data hdb
  have hmb : ByteOk (hmacSym key data) := hmacSym_byteOk hkb hdb
  rw [hsign] at hk ⊢
  simp only [List.length_append, List.length_cons] at hk
  by_cases hkP : k ≤ P.length
  · rw [List.take_append_of_le_length hkP]
    left
    unfold Encoder.verify
    rw [splitFirstDot_eq_none (fun h => hPdot (List.mem_of_mem_take h))]
  · obtain ⟨m, rfl⟩ : ∃ m, k = P.length + (m + 1) := ⟨k - P.length - 1, by omega⟩
    have hmS : m < S.length := by omega
    rw [List.take_append]
    show SignedFail (Encoder.verify ⟨key⟩ (P ++ 46 :: S.take m))
    unfold Encoder.verify
    rw [splitFirstDot_append hPdot]
    have hlen : S.length = b64elen (hmacSym key data).length := by
      rw [hS, b64encode_length]
    by_cases h4 : m % 4 = 1
    · have hnone : b64decode (S.take m) = none := by
        rw [hS]
        exact (b64decode_take (hmacSym key data) hmb m).1 h4
          (by rw [← hS]; omega)
      simp only [hPdec, hnone]
      right; left
      rfl
    · have hsome : b64decode (S.take m) =
          some ((hmacSym key data).take (b64dlen m)) := by
        rw [hS]
        exact (b64decode_take (hmacSym key data) hmb m).2 h4
      have hdl : b64dlen m < (hmacSym key data).length :=
        b64dlen_lt (by omega) h4
      simp only [hPdec, hsome]
      rw [if_neg ?hne]
      · right; right
        rfl
      case hne =>
        intro h
        have := congrArg List.length h
        simp only [List.length_take] at this
        omega

/-- An ideal AEAD ciphertext that is a prefix of another under the same
key and nonce seals the same plaintext. -/
theorem gcmSeal_prefix_eq {key nonce p q : Bytes} (hp : p.length < 2 ^ 32)
    (hq : q.length < 2 ^ 32)
    (h : gcmSeal key nonce q <+: gcmSeal key nonce p) : q = p := by
  obtain ⟨t, ht⟩ := h
  unfold gcmSeal at ht
  have h1 : lp key ++ (lp nonce ++ (lp q ++ (q ++ t))) =
      lp key ++ (lp nonce ++ (lp p ++ p)) := by
    simpa [List.append_assoc] using ht
  have h2 := List.append_cancel_left (List.append_cancel_left h1)
  exact (lp_append_inj hq hp h2).1

/-- The classified failures of the encrypted decode path. -/
def EncryptedFail (r : Except EncError Bytes) : Prop :=
  r = .error .base64 ∨ r = .error .tooShort ∨ r = .error .gcmFail

/-- Truncating an encrypted token to any proper prefix always makes
`decrypt` fail with a classified error: the ideal AEAD accepts no proper
prefix of a genuine ciphertext. -/
theorem decrypt_encrypt_take (key nonce data : Bytes) (hkb : ByteOk key)
    (hkl : key.length = 32) (hnb : ByteOk nonce)
    (hnl : nonce.length = gcmNonceSize) (hdb : ByteOk data)
    (hdl : data.length < 2 ^ 30) (k : Nat)
    (hk : k < (Encoder.encrypt ⟨key⟩ nonce data).length) :
    EncryptedFail
      (Encoder.decrypt ⟨key⟩ ((Encoder.encrypt ⟨key⟩ nonce data).take k)) := by
  set bytes := nonce ++ gcmSeal key nonce data with hbytes
  have hcat : ByteOk bytes := by
    intro b hb
    rcases List.mem_append.1 hb with h3 | h3
    · exact hnb b h3
    · exact gcmSeal_byteOk hkb hnb hdb b h3
  have henc : Encoder.encrypt ⟨key⟩ nonce data = b64encode bytes := rfl
  have hblen : bytes.length = 68 + 2 * data.length := by
    rw [hbytes]
    simp only [List.length_append, gcmSeal_length, hkl, hnl, gcmNonceSize]
    omega
  rw [henc] at hk ⊢
  rw [b64encode_length] at hk
  by_cases h4 : k % 4 = 1
  · have hnone : b64decode ((b64encode bytes).take k) = none :=
      (b64decode_take bytes hcat k).1 h4 (by rw [b64encode_length]; omega)
    left
    unfold Encoder.decrypt
    rw [hnone]
  · have hsome : b64decode ((b64encode bytes).take k) =
        some (bytes.take (b64dlen k)) := (b64decode_take bytes hcat k).2 h4
    have hdk : b64dlen k < bytes.length := b64dlen_lt hk h4
    unfold Encoder.decrypt
    simp only [hsome]
    set d := b64dlen k with hd
    by_cases hshort : (bytes.take d).length < gcmNonceSize
    · rw [if_pos hshort]
      right; left
      rfl
    · rw [if_neg hshort]
      have hdge : gcmNonceSize ≤ d := by
        simp only [List.length_take] at hshort
        omega
      have htk : (bytes.take d).take gcmNonceSize = nonce := by
        rw [List.take_take, min_eq_left hdge, hbytes,
          List.take_append_of_le_length (by omega), ← hnl, List.take_length]
      have hdr : (bytes.take d).drop gcmNonceSize =
          (gcmSeal key nonce data).take (d - gcmNonceSize) := by
        rw [List.drop_take, hbytes, ← hnl, List.drop_left]
      rw [htk, hdr]
      set m := d - gcmNonceSize with hm
      have hmlt : m < (gcmSeal key nonce data).length := by
        rw [gcmSeal_length]
        have : bytes.length = nonce.length + (gcmSeal key nonce data).length := by
          rw [hbytes, List.length_append]
        rw [gcmSeal_length] at this
        omega
      rcases hopen : gcmOpen key nonce ((gcmSeal key nonce data).take m) with _ | q
      · right; right
        rfl
      · exfalso
        have hqb : ByteOk ((gcmSeal key nonce data).take m) := fun x hx =>
          gcmSeal_byteOk hkb hnb hdb x (List.mem_of_mem_take hx)
        have hs := gcmOpen_some hqb hopen
        have hqlen : q.length < 2 ^ 32 := by
          have := congrArg List.length hs
          simp only [List.length_take, gcmSeal_length] at this
          omega
        have hpre : gcmSeal key nonce q <+: gcmSeal key nonce data := by
          rw [← hs]
          exact List.take_prefix m _
        have hq : q = data := gcmSeal_prefix_eq (by omega) hqlen hpre
        subst hq
        have := congrArg List.length hs
        simp only [List.length_take] at this
        omega

theorem b64decode_quartet {c₁ c₂ c₃ c₄ : Nat} {rest u : Bytes}
    (h : b64decode (c₁ :: c₂ :: c₃ :: c₄ :: rest) = some u) :
    ∃ a b c d v, b64inv c₁ = some a ∧ b64inv c₂ = some b ∧
      b64inv c₃ = some c ∧ b64inv c₄ = some d ∧ b64decode rest = some v ∧
      u = (a * 4 + b / 16) :: (b % 16 * 16 + c / 4) :: (c % 4 * 64 + d) :: v := by
  simp only [b64decode] at h
  rcases ha : b64inv c₁ with _ | a <;> rw [ha] at h
  · simp at h
  rcases hb : b64inv c₂ with _ | b <;> rw [hb] at h
  · simp at h
  rcases hc : b64inv c₃ with _ | c <;> rw [hc] at h
  · simp at h
  rcases hd : b64inv c₄ with _ | d <;> rw [hd] at h
  · simp at h
  rcases hrest : b64decode rest with _ | v <;> rw [hrest] at h
  · simp at h
  exact ⟨a, b, c, d, v, rfl, rfl, rfl, rfl, rfl, by simpa using h.symm⟩

/-- Locality of single-character substitution through base64 decoding:
when both the original and the mutated string decode, they decode to
byte lists of the same length that agree everywhere outside the 3-byte
quantum containing the mutated character. -/
theorem b64decode_set_window (t : Bytes) (i ch : Nat) (u u₂ : Bytes)
    (hu : b64decode t = some u) (hu₂ : b64decode (t.set i ch) = some u₂) :
    u₂.length = u.length ∧
    ∀ m (hm : m < u.length) (hm₂ : m < u₂.length),
      m / 3 ≠ i / 4 → u₂.get ⟨m, hm₂⟩ = u.get ⟨m, hm⟩ := by
  induction t using quadInduction generalizing i u u₂ with
  | h0 =>
      simp only [List.set_nil] at hu₂
      simp only [b64decode, Option.some.injEq] at hu hu₂
      subst hu hu₂
      exact ⟨rfl, fun m hm _ _ => absurd hm (by simp)⟩
  | h1 a =>
      simp [b64decode] at hu
  | h2 a b =>
      have hlen : u₂.length = u.length := by
        have h1 := (b64decode_some_valid _ _ hu).2
        have h2 := (b64decode_some_valid _ _ hu₂).2
        rw [List.length_set] at h2
        omega
      refine ⟨hlen, fun m hm hm₂ hw => ?_⟩
      have hu1 : u.length = 1 := by
        have := (b64decode_some_valid _ _ hu).2
        simpa [b64dlen] using this
      by_cases hi : i < 2
      · exfalso
        apply hw
        omega
      · rw [List.set_eq_of_length_le (by simp; omega)] at hu₂
        rw [hu] at hu₂
        obtain rfl : u = u₂ := by simpa using hu₂
        rfl
  | h3 a b c₃ =>
      have hlen : u₂.length = u.length := by
        have h1 := (b64decode_some_valid _ _ hu).2
        have h2 := (b64decode_some_valid _ _ hu₂).2
        rw [List.length_set] at h2
        omega
      refine ⟨hlen, fun m hm hm₂ hw => ?_⟩
      have hu1 : u.length = 2 := by
        have := (b64decode_some_valid _ _ hu).2
        simpa [b64dlen] using this
      by_cases hi : i < 4
      · exfalso
        apply hw
        omega
      · rw [List.set_eq_of_length_le (by simp; omega)] at hu₂
        rw [hu] at hu₂
        obtain rfl : u = u₂ := by simpa using hu₂
        rfl
  | h4 c₁ c₂ c₃ c₄ rest ih =>
      obtain ⟨a, b, c, d, v, ha, hb, hc, hd, hv, hue⟩ := b64decode_quartet hu
      by_cases hi : i < 4
      · -- the mutation stays within the first quantum; the tail is unchanged
        have hset : (c₁ :: c₂ :: c₃ :: c₄ :: rest).set i ch =
            ((c₁ :: c₂ :: c₃ :: [c₄]).set i ch).append rest := by
          interval_cases i <;> rfl
        rw [hset] at hu₂
        have hform : ∃ d₁ d₂ d₃ d₄,
            ((c₁ :: c₂ :: c₃ :: [c₄]).set i ch).append rest =
              d₁ :: d₂ :: d₃ :: d₄ :: rest := by
          interval_cases i <;> exact ⟨_, _, _, _, rfl⟩
        obtain ⟨d₁, d₂, d₃, d₄, hform⟩ := hform
        rw [hform] at hu₂
        obtain ⟨a₂, b₂, c₂v, d₂v, v₂, _, _, _, _, hv₂, hue₂⟩ :=
          b64decode_quartet hu₂
        rw [hv] at hv₂
        obtain rfl : v₂ = v := by simpa using hv₂.symm
        subst hue hue₂
        refine ⟨by simp, fun m hm hm₂ hw => ?_⟩
        have hm3 : 3 ≤ m := by
          rcases Nat.lt_or_ge m 3 with h3 | h3
          · exfalso
            apply hw
            omega
          · exact h3
        obtain ⟨m', rfl⟩ : ∃ m', m = m' + 3 := ⟨m - 3, by omega⟩
        rfl
      · -- the mutation is in the tail; the first quantum is unchanged
        obtain ⟨i', rfl⟩ : ∃ i', i = i' + 4 := ⟨i - 4, by omega⟩
        have hset : (c₁ :: c₂ :: c₃ :: c₄ :: rest).set (i' + 4) ch =
            c₁ :: c₂ :: c₃ :: c₄ :: rest.set i' ch := rfl
        rw [hset] at hu₂
        obtain ⟨a₂, b₂, c₂v, d₂v, v₂, ha₂, hb₂, hc₂, hd₂, hv₂, hue₂⟩ :=
          b64decode_quartet hu₂
        rw [ha] at ha₂
        rw [hb] at hb₂
        rw [hc] at hc₂
        rw [hd] at hd₂
        obtain rfl : a₂ = a := by simpa using ha₂.symm
        obtain rfl : b₂ = b := by simpa using hb₂.symm
        obtain rfl : c₂v = c := by simpa using hc₂.symm
        obtain rfl : d₂v = d := by simpa using hd₂.symm
        obtain ⟨ihlen, ihw⟩ := ih i' v v₂ hv hv₂
        subst hue hue₂
        refine ⟨by simp [ihlen], fun m hm hm₂ hw => ?_⟩
        rcases Nat.lt_or_ge m 3 with h3 | h3
        · interval_cases m <;> rfl
        · obtain ⟨m', rfl⟩ : ∃ m', m = m' + 3 := ⟨m - 3, by omega⟩
          have hm' : m' < v.length := by
            simp only [List.length_cons] at hm
            omega
          have hm₂' : m' < v₂.length := by
            simp only [List.length_cons] at hm₂
            omega
          have hww : m' / 3 ≠ i' / 4 := by
            intro h
            apply hw
            omega
          have := ihw m' hm' hm₂' hww
          simpa using this

theorem b64inv_lt {c s : Nat} (h : b64inv c = some s) : s < 64 := by
  unfold b64inv at h
  split at h
  · obtain rfl : c - 65 = s := by simpa using h
    omega
  split at h
  · obtain rfl : 26 + (c - 97) = s := by simpa using h
    omega
  split at h
  · obtain rfl : 52 + (c - 48) = s := by simpa using h
    omega
  split at h
  · obtain rfl : 62 = s := by simpa using h
    omega
  split at h
  · obtain rfl : 63 = s := by simpa using h
    omega
  · simp at h

theorem b64decode_byteOk {l u : Bytes} (h : b64decode l = some u) : ByteOk u := by
  induction l using quadInduction generalizing u with
  | h0 =>
      obtain rfl : [] = u := by simpa [b64decode] using h
      intro x hx
      simp at hx
  | h1 a => simp [b64decode] at h
  | h2 a b =>
      simp only [b64decode] at h
      rcases ha : b64inv a with _ | a₂ <;> rw [ha] at h
      · simp at h
      rcases hb : b64inv b with _ | b₂ <;> rw [hb] at h
      · simp at h
      obtain rfl : u = [a₂ * 4 + b₂ / 16] := by simpa using h.symm
      have h1 := b64inv_lt ha
      have h2 := b64inv_lt hb
      intro x hx
      simp only [List.mem_singleton] at hx
      omega
  | h3 a b c =>
      simp only [b64decode] at h
      rcases ha : b64inv a with _ | a₂ <;> rw [ha] at h
      · simp at h
      rcases hb : b64inv b with _ | b₂ <;> rw [hb] at h
      · simp at h
      rcases hc : b64inv c with _ | c₂ <;> rw [hc] at h
      · simp at h
      obtain rfl : u = [a₂ * 4 + b₂ / 16, b₂ % 16 * 16 + c₂ / 4] := by
        simpa using h.symm
      have h1 := b64inv_lt ha
      have h2 := b64inv_lt hb
      have h3 := b64inv_lt hc
      intro x hx
      simp only [List.mem_cons, List.not_mem_nil, or_false] at hx
      rcases hx with rfl | rfl <;> omega
  | h4 a b c d rest ih =>
      obtain ⟨a₂, b₂, c₂, d₂, v, ha, hb, hc, hd, hv, rfl⟩ := b64decode_quartet h
      have h1 := b64inv_lt ha
      have h2 := b64inv_lt hb
      have h3 := b64inv_lt hc
      have h4 := b64inv_lt hd
      intro x hx
      simp only [List.mem_cons] at hx
      rcases hx with rfl | rfl | rfl | hx
      · omega
      · omega
      · omega
      · exact ih hv x hx

theorem get_drop_take {l : Bytes} {off L k : Nat} (hk : k < L)
    (h : off + k < l.length) (h₂ : k < ((l.drop off).take L).length) :
    ((l.drop off).take L).get ⟨k, h₂⟩ = l.get ⟨off + k, h⟩ := by
  simp only [List.get_eq_getElem]
  rw [List.getElem_take]
  rw [List.getElem_drop]

theorem get_eq_of_slice {l q : Bytes} {o L k : Nat}
    (hsl : (l.drop o).take L = q) (hk : k < L) (hkq : k < q.length)
    (h : o + k < l.length) :
    q.get ⟨k, hkq⟩ = l.get ⟨o + k, h⟩ := by
  subst hsl
  exact get_drop_take hk h hkq

theorem exists_get_ne {u v : Bytes} (hlen : u.length = v.length) (hne : u ≠ v) :
    ∃ k, ∃ (hk : k < u.length) (hk₂ : k < v.length),
      u.get ⟨k, hk⟩ ≠ v.get ⟨k, hk₂⟩ := by
  by_contra hcon
  push_neg at hcon
  exact hne (List.ext_get hlen fun n h1 h2 => hcon n h1 h2)

/-- Two byte lists agreeing outside a 3-byte window have equal slices on
any range disjoint from the window. -/
theorem slice_eq_of_window {x y : Bytes} (hlen : y.length = x.length)
    (w : Nat)
    (hwin : ∀ m (hm : m < x.length) (hm₂ : m < y.length),
      m / 3 ≠ w → y.get ⟨m, hm₂⟩ = x.get ⟨m, hm⟩)
    (off L : Nat) (hL : off + L ≤ x.length)
    (hclean : ∀ m, off ≤ m → m < off + L → m / 3 ≠ w) :
    (y.drop off).take L = (x.drop off).take L := by
  apply List.ext_get
  · simp only [List.length_take, List.length_drop, hlen]
  · intro k h1 h2
    have hkL : k < L := by
      simp only [List.length_take, List.length_drop] at h1
      omega
    have hofk : off + k < x.length := by omega
    have hofk₂ : off + k < y.length := by omega
    rw [get_drop_take hkL hofk₂ h1, get_drop_take hkL hofk h2]
    exact hwin (off + k) hofk hofk₂ (hclean (off + k) (by omega) (by omega))

theorem decrypt_eq_of_decode {key nonce data s : Bytes}
    (hkl : key.length < 2 ^ 32) (hnl : nonce.length = gcmNonceSize)
    (hdl : data.length < 2 ^ 32)
    (hdec : b64decode s = some (nonce ++ gcmSeal key nonce data)) :
    Encoder.decrypt ⟨key⟩ s = .ok data := by
  unfold Encoder.decrypt
  simp only [hdec]
  rw [if_neg (by simp only [List.length_append, gcmSeal_length, gcmNonceSize]; omega)]
  have ht : (nonce ++ gcmSeal key nonce data).take gcmNonceSize = nonce := by
    rw [show gcmNonceSize = nonce.length from hnl.symm]
    exact List.take_left nonce _
  have hd : (nonce ++ gcmSeal key nonce data).drop gcmNonceSize =
      gcmSeal key nonce data := by
    rw [show gcmNonceSize = nonce.length from hnl.symm]
    exact List.drop_left nonce _
  rw [ht, hd]
  simp only [gcmOpen_gcmSeal key nonce data hkl (by rw [hnl]; decide) hdl]

/-- The allowed outcomes of an encrypted-mode decode of a tampered token. -/
def EncTamperOk (r : Except EncError Bytes) (data : Bytes) : Prop :=
  EncryptedFail r ∨ r = .ok data

/-- Substituting any single byte of an encrypted token leaves `decrypt`
either failing with a classified error or succeeding with exactly the
original plaintext: a one-byte change corrupts at most one 3-byte base64
quantum, and the ideal AEAD rejects every ciphertext that differs
anywhere from a genuine seal. -/
theorem decrypt_encrypt_set (key nonce data : Bytes) (hkb : ByteOk key)
    (hkl : key.length = 32) (hnb : ByteOk nonce)
    (hnl : nonce.length = gcmNonceSize) (hdb : ByteOk data)
    (hdl : data.length < 2 ^ 30) (hd5 : 5 ≤ data.length) (i ch : Nat) :
    EncTamperOk
      (Encoder.decrypt ⟨key⟩ ((Encoder.encrypt ⟨key⟩ nonce data).set i ch))
      data := by
  set bytes := nonce ++ gcmSeal key nonce data with hbytes
  have hcat : ByteOk bytes := by
    intro b hb
    rcases List.mem_append.1 hb with h3 | h3
    · exact hnb b h3
    · exact gcmSeal_byteOk hkb hnb hdb b h3
  have henc : Encoder.encrypt ⟨key⟩ nonce data = b64encode bytes := rfl
  have hblen : bytes.length = 68 + 2 * data.length := by
    rw [hbytes]
    simp only [List.length_append, gcmSeal_length, hkl, hnl, gcmNonceSize]
    omega
  have hrt : b64decode (b64encode bytes) = some bytes :=
    b64decode_b64encode bytes hcat
  rw [henc]
  by_cases hi : i < (b64encode bytes).length
  swap
  · rw [List.set_eq_of_length_le (by omega)]
    right
    exact decrypt_eq_of_decode (by omega) hnl (by omega) hrt
  by_cases hchv : (b64inv ch).isSome
  swap
  · -- mutated character is not in the base64url alphabet
    have hmem : ch ∈ (b64encode bytes).set i ch := by
      have hilt : i < ((b64encode bytes).set i ch).length := by
        rw [List.length_set]
        exact hi
      have hg : ((b64encode bytes).set i ch).get ⟨i, hilt⟩ = ch := by
        simp [List.get_eq_getElem]
      have hm := List.get_mem ((b64encode bytes).set i ch) i hilt
      rw [hg] at hm
      exact hm
    have hnone : b64decode ((b64encode bytes).set i ch) = none :=
      b64decode_eq_none_of_invalid hmem
        (Option.not_isSome_iff_eq_none.1 hchv)
    left; left
    unfold Encoder.decrypt
    rw [hnone]
  · -- valid character: the mutated string still decodes
    have hvalid : ∀ x ∈ (b64encode bytes).set i ch, (b64inv x).isSome := by
      intro x hx
      rcases List.mem_or_eq_of_mem_set hx with h3 | h3
      · exact b64encode_valid bytes hcat x h3
      · exact h3 ▸ hchv
    have hlen4 : ((b64encode bytes).set i ch).length % 4 ≠ 1 := by
      rw [List.length_set, b64encode_length]
      exact b64elen_mod_four _
    obtain ⟨bytes₂, hdec₂, hlen₂⟩ :=
      b64decode_of_valid _ hvalid hlen4
    have hlenbb : bytes₂.length = bytes.length := by
      rw [hlen₂, List.length_set, b64encode_length, b64dlen_b64elen]
    by_cases heq : bytes₂ = bytes
    · right
      subst heq
      exact decrypt_eq_of_decode (by omega) hnl (by omega) hdec₂
    · -- the decoded bytes changed: the ideal AEAD must reject them
      obtain ⟨_, hwin⟩ :=
        b64decode_set_window (b64encode bytes) i ch bytes bytes₂ hrt hdec₂
      unfold Encoder.decrypt
      simp only [hdec₂]
      rw [if_neg (by rw [hlenbb]; simp only [gcmNonceSize]; omega)]
      rcases hopen : gcmOpen key (bytes₂.take gcmNonceSize)
          (bytes₂.drop gcmNonceSize) with _ | q
      · left; right; right
        rfl
      exfalso
      have hb₂ : ByteOk bytes₂ := b64decode_byteOk hdec₂
      have hbody := gcmOpen_some (fun x hx => hb₂ x (List.mem_of_mem_drop hx)) hopen
      set nonce₂ := bytes₂.take gcmNonceSize with hnonce₂
      have hn₂l : nonce₂.length = 12 := by
        rw [hnonce₂, List.length_take]
        simp only [gcmNonceSize]
        omega
      have hqlen : q.length = data.length := by
        have h1 := congrArg List.length hbody
        rw [List.length_drop, hlenbb, hblen, gcmSeal_length, hkl, hn₂l] at h1
        simp only [gcmNonceSize] at h1
        omega
      -- decompositions of the original bytes
      have hx_n₁ : (bytes.drop 0).take 12 = nonce := by
        rw [List.drop_zero, hbytes, List.take_left' (show nonce.length = 12 from hnl)]
      have hx52 : bytes = (nonce ++ lp key ++ be4 nonce.length) ++
          (nonce ++ (lp data ++ data)) := by
        rw [hbytes]
        simp [gcmSeal, lp, List.append_assoc]
      have hx_n₂ : (bytes.drop 52).take 12 = nonce := by
        rw [hx52, List.drop_left' (by simp [lp_length, be4, hkl, hnl]; rfl),
          List.take_left' (show nonce.length = 12 from hnl)]
      have hx68 : bytes = ((nonce ++ lp key ++ be4 nonce.length ++ nonce) ++
          be4 data.length) ++ (data ++ data) := by
        rw [hbytes]
        simp [gcmSeal, lp, List.append_assoc]
      have hx_d : bytes.drop 68 = data ++ data := by
        rw [hx68, List.drop_left' (by simp [lp_length, hkl, hnl]; rfl)]
      -- decompositions of the mutated bytes
      have hy_split : bytes₂ = nonce₂ ++ gcmSeal key nonce₂ q := by
        rw [← hbody, hnonce₂]
        exact (List.take_append_drop gcmNonceSize bytes₂).symm
      have hy_n₁ : (bytes₂.drop 0).take 12 = nonce₂ := by
        rw [List.drop_zero, hy_split, List.take_left' hn₂l]
      have hy_n₂ : (bytes₂.drop 52).take 12 = nonce₂ := by
        rw [hy_split]
        have : nonce₂ ++ gcmSeal key nonce₂ q = (nonce₂ ++ lp key ++
            be4 nonce₂.length) ++ (nonce₂ ++ (lp q ++ q)) := by
          simp [gcmSeal, lp, List.append_assoc]
        rw [this, List.drop_left' (by simp [lp_length, hkl, hn₂l]; rfl),
          List.take_left' hn₂l]
      have hy_d : bytes₂.drop 68 = q ++ q := by
        rw [hy_split]
        have : nonce₂ ++ gcmSeal key nonce₂ q = ((nonce₂ ++ lp key ++
            be4 nonce₂.length ++ nonce₂) ++ be4 q.length) ++ (q ++ q) := by
          simp [gcmSeal, lp, List.append_assoc]
        rw [this, List.drop_left' (by simp [lp_length, hkl, hn₂l]; rfl)]
      -- the nonce is unchanged: the 3-byte window cannot straddle both
      -- copies of the nonce, and in the clean copy the bytes agree
      have hnn : nonce₂ = nonce := by
        by_cases hw : i / 4 ≤ 3
        · -- window inside [0, 12): the embedded copy at offset 52 is clean
          have hs := slice_eq_of_window hlenbb (i / 4) hwin 52 12
            (by omega) (fun m hm₁ hm₂ => by omega)
          rw [hy_n₂, hx_n₂] at hs
          exact hs
        · -- window at or beyond 12: the leading copy is clean
          have hs := slice_eq_of_window hlenbb (i / 4) hwin 0 12
            (by omega) (fun m hm₁ hm₂ => by omega)
          rw [hy_n₁, hx_n₁] at hs
          exact hs
      -- the payload is unchanged: a difference would show up in both
      -- copies, data.length ≥ 5 apart, exceeding the 3-byte window
      have hqd : q = data := by
        by_contra hqd
        obtain ⟨k, hk, hk₂, hne⟩ := exists_get_ne (hqlen ▸ rfl : q.length = data.length) hqd
        have hkd : k < data.length := by omega
        have hm₁y : 68 + k < bytes₂.length := by
          rw [hlenbb, hblen]
          omega
        have hm₁x : 68 + k < bytes.length := by
          rw [hblen]
          omega
        have hm₂y : 68 + data.length + k < bytes₂.length := by
          rw [hlenbb, hblen]
          omega
        have hm₂x : 68 + data.length + k < bytes.length := by
          rw [hblen]
          omega
        have hy₁ : q.get ⟨k, hk⟩ = bytes₂.get ⟨68 + k, hm₁y⟩ := by
          refine get_eq_of_slice ?_ hk hk hm₁y
          rw [hy_d, List.take_left' rfl]
        have hx₁ : data.get ⟨k, hk₂⟩ = bytes.get ⟨68 + k, hm₁x⟩ := by
          refine get_eq_of_slice ?_ hk₂ hk₂ hm₁x
          rw [hx_d, List.take_left' rfl]
        have hy₂ : q.get ⟨k, hk⟩ = bytes₂.get ⟨68 + data.length + k, hm₂y⟩ := by
          refine get_eq_of_slice (o := 68 + data.length) ?_ hk hk hm₂y
          rw [← List.drop_drop, hy_d, ← hqlen, List.drop_left q q]
          exact List.take_length q
        have hx₂ : data.get ⟨k, hk₂⟩ = bytes.get ⟨68 + data.length + k, hm₂x⟩ := by
          refine get_eq_of_slice (o := 68 + data.length) ?_ hk₂ hk₂ hm₂x
          rw [← List.drop_drop, hx_d, List.drop_left data data]
          exact List.take_length data
        have hdirty₁ : (68 + k) / 3 = i / 4 := by
          by_contra hcl
          exact hne (by rw [hy₁, hx₁, hwin (68 + k) hm₁x hm₁y hcl])
        have hdirty₂ : (68 + data.length + k) / 3 = i / 4 := by
          by_contra hcl
          exact hne (by rw [hy₂, hx₂, hwin (68 + data.length + k) hm₂x hm₂y hcl])
        omega
      apply heq
      rw [hy_split, hnn, hqd, hbytes]

theorem msgpackMarshal_length_ge (m : MapData) :
    5 ≤ (msgpackMarshal m).length := by
  simp [msgpackMarshal, be4]

/-- C2 counterexample: the claim says flipping any single byte of a valid
token must cause decode to fail; but Go's non-strict base64 decoder
ignores the slack bits of a final partial quantum, so changing the last
character of the payload half within its slack bits yields a different
token string that still decodes successfully (with the same data). -/
theorem claim_C2_counterexample :
    (Encoder.Encode ⟨List.replicate 32 7⟩ [] ⟨0, [120], false, [], []⟩
        false).set 61 104 ≠
      Encoder.Encode ⟨List.replicate 32 7⟩ [] ⟨0, [120], false, [], []⟩ false ∧
    Encoder.Decode ⟨List.replicate 32 7⟩
        ((Encoder.Encode ⟨List.replicate 32 7⟩ [] ⟨0, [120], false, [], []⟩
          false).set 61 104) false zeroProps =
      .ok { id := 0, name := [120], flag := false, secret := [], note := [] } := by
  constructor
  · decide
  · rfl

/-- C2 amended: for every valid token of either security mode, decoding
with the wrong security mode, with a different key, or after truncation
always fails with a classified error; substituting any single byte either
fails with a classified error or succeeds returning exactly the encoded
payload (possible only when the substitution does not change the decoded
bytes, e.g. base64 slack-bit changes) — decode never succeeds with data
different from the encoded payload.  Every encoding-engine error wraps to
one of the classifications InvalidFormat, SignatureInvalid or
DecryptFailed. -/
theorem claim_C2_tamper (key : Bytes) (hkb : ByteOk key)
    (hkl : key.length = 32) (p : Props) (hp : PropsOk p)
    (hsz : p.name.length + p.note.length < 2 ^ 29) (nonce : Bytes)
    (hnb : ByteOk nonce) (hnl : nonce.length = gcmNonceSize) :
    (∀ i ch,
      Encoder.Decode ⟨key⟩ ((Encoder.Encode ⟨key⟩ nonce p false).set i ch)
          false zeroProps = .error .missingSeparator ∨
      Encoder.Decode ⟨key⟩ ((Encoder.Encode ⟨key⟩ nonce p false).set i ch)
          false zeroProps = .error .base64 ∨
      Encoder.Decode ⟨key⟩ ((Encoder.Encode ⟨key⟩ nonce p false).set i ch)
          false zeroProps = .error .sigInvalid ∨
      Encoder.Decode ⟨key⟩ ((Encoder.Encode ⟨key⟩ nonce p false).set i ch)
          false zeroProps = .ok (rtProps p)) ∧
    (∀ i ch,
      Encoder.Decode ⟨key⟩ ((Encoder.Encode ⟨key⟩ nonce p true).set i ch)
          true zeroProps = .error .base64 ∨
      Encoder.Decode ⟨key⟩ ((Encoder.Encode ⟨key⟩ nonce p true).set i ch)
          true zeroProps = .error .tooShort ∨
      Encoder.Decode ⟨key⟩ ((Encoder.Encode ⟨key⟩ nonce p true).set i ch)
          true zeroProps = .error .gcmFail ∨
      Encoder.Decode ⟨key⟩ ((Encoder.Encode ⟨key⟩ nonce p true).set i ch)
          true zeroProps = .ok (rtProps p)) ∧
    (∀ k, k < (Encoder.Encode ⟨key⟩ nonce p false).length →
      Encoder.Decode ⟨key⟩ ((Encoder.Encode ⟨key⟩ nonce p false).take k)
          false zeroProps = .error .missingSeparator ∨
      Encoder.Decode ⟨key⟩ ((Encoder.Encode ⟨key⟩ nonce p false).take k)
          false zeroProps = .error .base64 ∨
      Encoder.Decode ⟨key⟩ ((Encoder.Encode ⟨key⟩ nonce p false).take k)
          false zeroProps = .error .sigInvalid) ∧
    (∀ k, k < (Encoder.Encode ⟨key⟩ nonce p true).length →
      Encoder.Decode ⟨key⟩ ((Encoder.Encode ⟨key⟩ nonce p true).take k)
          true zeroProps = .error .base64 ∨
      Encoder.Decode ⟨key⟩ ((Encoder.Encode ⟨key⟩ nonce p true).take k)
          true zeroProps = .error .tooShort ∨
      Encoder.Decode ⟨key⟩ ((Encoder.Encode ⟨key⟩ nonce p true).take k)
          true zeroProps = .error .gcmFail) ∧
    (Encoder.Decode ⟨key⟩ (Encoder.Encode ⟨key⟩ nonce p false) true zeroProps =
      .error .base64) ∧
    (Encoder.Decode ⟨key⟩ (Encoder.Encode ⟨key⟩ nonce p true) false zeroProps =
      .error .missingSeparator) ∧
    (∀ key₂ : Bytes, key₂.length < 2 ^ 32 → key₂ ≠ key →
      Encoder.Decode ⟨key₂⟩ (Encoder.Encode ⟨key⟩ nonce p false) false
          zeroProps = .error .sigInvalid ∧
      Encoder.Decode ⟨key₂⟩ (Encoder.Encode ⟨key⟩ nonce p true) true
          zeroProps = .error .gcmFail) ∧
    (∀ er : EncError, wrapDecodeError er = HxError.invalidFormat ∨
      wrapDecodeError er = HxError.signatureInvalid ∨
      wrapDecodeError er = HxError.decryptFailed) := by
  have hkl32 : key.length < 2 ^ 32 := by omega
  have hmap := hxEncode_mapOk p hp
  set data := msgpackMarshal p.hxEncode with hdata
  have hdb : ByteOk data := msgpackMarshal_byteOk p.hxEncode hmap
  have hdl : data.length < 2 ^ 30 := by
    have h1 := msgpackMarshal_hxEncode_length p
    rw [hdata]
    omega
  have hd5 : 5 ≤ data.length := msgpackMarshal_length_ge p.hxEncode
  have hencs : Encoder.Encode ⟨key⟩ nonce p false = Encoder.sign ⟨key⟩ data := rfl
  have hence : Encoder.Encode ⟨key⟩ nonce p true =
      Encoder.encrypt ⟨key⟩ nonce data := rfl
  refine ⟨?_, ?_, ?_, ?_, ?_, ?_, ?_, ?_⟩
  · intro i ch
    rw [hencs]
    rcases verify_sign_set key data hkb hkl32 hdb i ch with h | h | h | h
    · exact Or.inl (Decode_error_signed zeroProps h)
    · exact Or.inr (Or.inl (Decode_error_signed zeroProps h))
    · exact Or.inr (Or.inr (Or.inl (Decode_error_signed zeroProps h)))
    · exact Or.inr (Or.inr (Or.inr (Decode_ok_signed p hp h)))
  · intro i ch
    rw [hence]
    rcases decrypt_encrypt_set key nonce data hkb hkl hnb hnl hdb hdl hd5 i ch
      with (h | h | h) | h
    · exact Or.inl (Decode_error_encrypted zeroProps h)
    · exact Or.inr (Or.inl (Decode_error_encrypted zeroProps h))
    · exact Or.inr (Or.inr (Or.inl (Decode_error_encrypted zeroProps h)))
    · exact Or.inr (Or.inr (Or.inr (Decode_ok_encrypted p hp h)))
  · intro k hk
    rw [hencs] at hk ⊢
    rcases verify_sign_take key data hkb hkl32 hdb k hk with h | h | h
    · exact Or.inl (Decode_error_signed zeroProps h)
    · exact Or.inr (Or.inl (Decode_error_signed zeroProps h))
    · exact Or.inr (Or.inr (Decode_error_signed zeroProps h))
  · intro k hk
    rw [hence] at hk ⊢
    rcases decrypt_encrypt_take key nonce data hkb hkl hnb hnl hdb hdl k hk
      with h | h | h
    · exact Or.inl (Decode_error_encrypted zeroProps h)
    · exact Or.inr (Or.inl (Decode_error_encrypted zeroProps h))
    · exact Or.inr (Or.inr (Decode_error_encrypted zeroProps h))
  · rw [hencs]
    exact Decode_error_encrypted zeroProps (decrypt_of_sign key key data)
  · rw [hence]
    exact Decode_error_signed zeroProps (verify_of_encrypt key key nonce data)
  · intro key₂ h₂l h₂ne
    constructor
    · rw [hencs]
      exact Decode_error_signed zeroProps
        (verify_wrong_key key key₂ data hkb hkl32 h₂l hdb (fun h => h₂ne h.symm))
    · rw [hence]
      exact Decode_error_encrypted zeroProps
        (decrypt_wrong_key key key₂ nonce data hkb hkl32 h₂l hnb hnl hdb
          (fun h => h₂ne h.symm))
  · intro er
    rcases er with _ | _ | _ | _ | _ | _
    · exact Or.inl rfl
    · exact Or.inl rfl
    · exact Or.inr (Or.inl rfl)
    · exact Or.inl rfl
    · exact Or.inr (Or.inr rfl)
    · exact Or.inl rfl

theorem claim_C2_tamper_witness :
    Encoder.Decode ⟨List.replicate 32 7⟩
        (Encoder.Encode ⟨List.replicate 32 7⟩ (List.replicate 12 3)
          ⟨0, [120], false, [], []⟩ false) true zeroProps =
      .error .base64 ∧
    Encoder.Decode ⟨List.replicate 32 7⟩
        (Encoder.Encode ⟨List.replicate 32 7⟩ (List.replicate 12 3)
          ⟨0, [120], false, [], []⟩ true) false zeroProps =
      .error .missingSeparator :=
  have h := claim_C2_tamper (List.replicate 32 7) (by decide) (by decide)
    ⟨0, [120], false, [], []⟩ (by decide) (by decide) (List.replicate 12 3)
    (by decide) (by decide)
  ⟨h.2.2.2.2.1, h.2.2.2.2.2.1⟩

end Hxcmp
